import Mathlib

/-!  Verification of the swagger2ts-codegen core: naming utilities, the
sentinel-marker merge engine, the type/function emitters and the
reference-closure drain, shallowly embedded over `List Char` texts. -/

/-- Text is modelled as a list of characters (JS strings). -/
abbrev Str := List Char

/-- `str.replace(/[-_](.)/g, (_, c) => c.toUpperCase())`: each '-' or '_'
followed by a regex-dot character is replaced by that character uppercased.
A regex `.` does not match line terminators. -/
def isRegexDot (c : Char) : Bool :=
  !(c = '\n' || c = '\r' || c = '\u2028' || c = '\u2029')

def camelReplace : Str → Str
  | [] => []
  | [c] => [c]
  | c :: d :: rest =>
    if c = '-' || c = '_' then
      if isRegexDot d then d.toUpper :: camelReplace rest
      else c :: camelReplace (d :: rest)
    else c :: camelReplace (d :: rest)

/-- `.replace(/^(.)/, (_, c) => c.toLowerCase())`. -/
def lowerFirst : Str → Str
  | [] => []
  | c :: t => if isRegexDot c then c.toLower :: t else c :: t

/-- `toCamelCase` from src/utils/naming.ts. -/
def toCamelCase (s : Str) : Str :=
  lowerFirst (camelReplace s)

/-- `toPascalCase` from src/utils/naming.ts:
`camel.charAt(0).toUpperCase() + camel.slice(1)`. -/
def toPascalCase (s : Str) : Str :=
  match toCamelCase s with
  | [] => []
  | c :: t => c.toUpper :: t

example : toPascalCase "pos-devices".toList = "PosDevices".toList := by decide
example : toCamelCase "pos_devices".toList = "posDevices".toList := by decide

/-- `removeTypeSuffix` from src/utils/naming.ts: returns on the first suffix
of the list that `name` ends with, slicing it off (`name.slice(0, -suffix.length)`;
for an empty suffix JS `-0` is `0`, so the slice is empty). -/
def removeTypeSuffix (name : Str) : List Str → Str
  | [] => name
  | suffix :: rest =>
    if suffix.isSuffixOf name then
      if suffix.length = 0 then [] else name.take (name.length - suffix.length)
    else removeTypeSuffix name rest

/-- JS `String.prototype.split(sep)` for a one-character separator. -/
def splitChar (c : Char) (l : Str) : List Str :=
  match l with
  | [] => [[]]
  | x :: t =>
    if x = c then [] :: splitChar c t
    else
      match splitChar c t with
      | [] => [[x]]
      | h :: r => (x :: h) :: r

/-- The last element of `parts` (`parts[parts.length - 1]`); `[]` when empty. -/
def lastPart : List Str → Str
  | [] => []
  | [p] => p
  | _ :: q :: r => lastPart (q :: r)

/-- `cleanTypeName` from src/utils/naming.ts: keep the part after the last dot,
Pascal-case it, remove the first matching configured suffix. -/
def cleanTypeName (name : Str) (suffixesToRemove : List Str := []) : Str :=
  removeTypeSuffix (toPascalCase (lastPart (splitChar '.' name))) suffixesToRemove

example : cleanTypeName "system.SysApi".toList [] = "SysApi".toList := by decide
example : cleanTypeName "request.DeviceLoginRequest".toList ["Request".toList]
    = "DeviceLogin".toList := by decide

/-- Matches the regex class `[a-zA-Z_]` of the Express-style path-param rule. -/
def isIdentStart (c : Char) : Bool := c.isAlpha || c = '_'

/-- Matches the regex class `[a-zA-Z0-9_]`. -/
def isIdentChar (c : Char) : Bool := c.isAlphanum || c = '_'

/-- Scanner for `path.replace(/\x7b([^\x7d]+)\x7d/g, (_, p) => '/By' + toPascalCase(p))`.
The second argument counts characters already consumed by a completed match
(the matched text is skipped, scanning resumes after it, as the regex engine
does for a global replace). -/
def braceScan : Str → Nat → Str
  | [], _ => []
  | _ :: rest, skip + 1 => braceScan rest skip
  | c :: rest, 0 =>
    if c = '{' then
      let seg := rest.takeWhile (fun d => d ≠ '}')
      match rest.dropWhile (fun d => d ≠ '}') with
      | _ :: _ =>
        if seg.isEmpty then c :: braceScan rest 0
        else '/' :: 'B' :: 'y' :: (toPascalCase seg ++ braceScan rest (seg.length + 1))
      | [] => c :: braceScan rest 0
    else c :: braceScan rest 0

/-- `path.replace(/\x7b([^\x7d]+)\x7d/g, (_, p) => '/By' + toPascalCase(p))`:
each `\x7bparam\x7d` becomes a `/By<PascalParam>` token. -/
def replaceBraceParams (l : Str) : Str := braceScan l 0

/-- Scanner for `path.replace(/:([a-zA-Z_][a-zA-Z0-9_]*)/g, (_, p) => '/By' + toPascalCase(p))`,
with the same skip-after-match mechanism as `braceScan`. -/
def colonScan : Str → Nat → Str
  | [], _ => []
  | _ :: rest, skip + 1 => colonScan rest skip
  | c :: rest, 0 =>
    if c = ':' then
      match rest with
      | d :: rest' =>
        if isIdentStart d then
          let ident := d :: rest'.takeWhile isIdentChar
          '/' :: 'B' :: 'y' :: (toPascalCase ident ++ colonScan rest ident.length)
        else c :: colonScan rest 0
      | [] => [c]
    else c :: colonScan rest 0

/-- `path.replace(/:([a-zA-Z_][a-zA-Z0-9_]*)/g, (_, p) => '/By' + toPascalCase(p))`. -/
def replaceColonParams (l : Str) : Str := colonScan l 0

/-- `generateFunctionName` from src/utils/naming.ts: replace `\x7bparam\x7d`
and `:param` segments by `/By<PascalParam>`, split on '/', drop empty parts,
Pascal-case and join, and prefix the lowercased method. -/
def generateFunctionName (method : Str) (path : Str) : Str :=
  let processedPath := replaceColonParams (replaceBraceParams path)
  let pathParts :=
    ((splitChar '/' processedPath).filter (fun p => !p.isEmpty)).map toPascalCase
  method.map Char.toLower ++ pathParts.flatten

example : generateFunctionName "GET".toList "/orders/:id".toList
    = "getOrdersById".toList := by decide

/-- `cleanPathPrefix` from src/utils/naming.ts: strip the first matching
prefix of the list, re-adding a leading '/' when the remainder lacks one. -/
def cleanPathPrefix (path : Str) : List Str → Str
  | [] => path
  | px :: rest =>
    if px.isPrefixOf path then
      let result := path.drop px.length
      if result.take 1 = ['/'] then result else '/' :: result
    else cleanPathPrefix path rest

/-- `tagToDirectoryName` from src/utils/naming.ts. -/
def tagToDirectoryName (tag : Str) : Str := toCamelCase tag

example : generateFunctionName "DELETE".toList "/orders/\x7bid\x7d/items/\x7bitemId\x7d".toList
    = "deleteOrdersByIdItemsByItemId".toList := by decide

/-- `AUTO_GEN_START` from src/generators/apiGenerator.ts. -/
def AUTO_GEN_START : Str := "// --- AUTO GENERATED START ---".toList

/-- `AUTO_GEN_END` from src/generators/apiGenerator.ts. -/
def AUTO_GEN_END : Str := "// --- AUTO GENERATED END ---".toList

/-- JS `haystack.indexOf(needle)`: the index of the first occurrence of the
substring, `none` standing for `-1`. -/
def indexOfSub (p : Str) : Str → Option Nat
  | [] => if p.isPrefixOf ([] : Str) then some 0 else none
  | c :: t =>
    if p.isPrefixOf (c :: t) then some 0
    else (indexOfSub p t).map (· + 1)

/-- JS `s.replace(pat, '')` for a plain-string pattern: remove the first
occurrence of `pat`, if any. -/
def replaceFirst (pat : Str) (s : Str) : Str :=
  match indexOfSub pat s with
  | some i => s.take i ++ s.drop (i + pat.length)
  | none => s

/-- `mergeWithExisting` from src/generators/apiGenerator.ts: when both texts
contain both sentinel markers, keep the prior text around its marked region
and splice in the new text's marked region (`slice(start, end + len)` is
`take (end + len)` then `drop start`); otherwise return the new text. -/
def mergeWithExisting (existingContent newContent : Str) : Str :=
  match indexOfSub AUTO_GEN_START existingContent,
        indexOfSub AUTO_GEN_END existingContent with
  | some existingStartIndex, some existingEndIndex =>
    match indexOfSub AUTO_GEN_START newContent,
          indexOfSub AUTO_GEN_END newContent with
    | some newStartIndex, some newEndIndex =>
      let newAutoGenPart :=
        (newContent.take (newEndIndex + AUTO_GEN_END.length)).drop newStartIndex
      let beforeAutoGen := existingContent.take existingStartIndex
      let afterAutoGen := existingContent.drop (existingEndIndex + AUTO_GEN_END.length)
      beforeAutoGen ++ newAutoGenPart ++ afterAutoGen
    | _, _ => newContent
  | _, _ => newContent

/-- `SchemaObject` from src/types.ts: a JSON-Schema-like node. `Option` fields
model absent JS properties; `addProps` models `additionalProperties`
(boolean or nested schema). -/
inductive Schema where
  | mk (ref : Option Str) (type : Option Str) (description : Option Str)
       (properties : Option (List (Str × Schema)))
       (items : Option Schema)
       (required : Option (List Str))
       (enum : Option (List (Str ⊕ Int)))
       (allOf : Option (List Schema))
       (addProps : Option (Bool ⊕ Schema))

def Schema.ref : Schema → Option Str
  | .mk r _ _ _ _ _ _ _ _ => r

def Schema.type : Schema → Option Str
  | .mk _ t _ _ _ _ _ _ _ => t

def Schema.description : Schema → Option Str
  | .mk _ _ d _ _ _ _ _ _ => d

def Schema.properties : Schema → Option (List (Str × Schema))
  | .mk _ _ _ p _ _ _ _ _ => p

def Schema.items : Schema → Option Schema
  | .mk _ _ _ _ i _ _ _ _ => i

def Schema.required : Schema → Option (List Str)
  | .mk _ _ _ _ _ r _ _ _ => r

def Schema.enum : Schema → Option (List (Str ⊕ Int))
  | .mk _ _ _ _ _ _ e _ _ => e

def Schema.allOf : Schema → Option (List Schema)
  | .mk _ _ _ _ _ _ _ a _ => a

def Schema.addProps : Schema → Option (Bool ⊕ Schema)
  | .mk _ _ _ _ _ _ _ _ a => a

/-- A schema that carries nothing (every JS property absent). -/
def Schema.empty : Schema := .mk none none none none none none none none none

/-- A bare `$ref` schema. -/
def refSchema (r : Str) : Schema := .mk (some r) none none none none none none none none

/-- A bare primitive schema (`\x7b type: t \x7d`). -/
def typeSchema (t : Str) : Schema := .mk none (some t) none none none none none none none

/-- An object schema with the given `properties` and `required` lists. -/
def objSchema (ps : List (Str × Schema)) (req : Option (List Str) := none) : Schema :=
  .mk none (some "object".toList) none (some ps) none req none none none

/-- `Config` from src/types.ts (the fields the core consumes). -/
structure Config where
  requestClient : Str
  requestImport : Str
  pathPrefixFilter : List Str
  typeNameSuffixFilter : List Str
  excludeFields : List Str
  unwrapResponseField : Option Str
  includeTags : List Str := []
  excludeTags : List Str := []

/-- `Parameter` from src/types.ts (the fields the core reads). -/
structure Parameter where
  name : Str
  inLoc : Str
  description : Option Str := none
  required : Option Bool := none
  type : Option Str := none
  schema : Option Schema := none
  items : Option Schema := none
  enum : Option (List (Str ⊕ Int)) := none

/-- `ParsedType` from src/types.ts. -/
structure ParsedType where
  originalName : Str
  name : Str
  schema : Schema

/-- `ParsedAPI` from src/types.ts. -/
structure ParsedAPI where
  path : Str
  cleanPath : Str
  method : Str
  tag : Str
  functionName : Str
  summary : Option Str := none
  paramsTypeName : Option Str := none
  bodyTypeName : Option Str := none
  responseTypeName : Option Str := none
  pathParams : List Parameter := []
  queryParams : List Parameter := []
  bodySchema : Option Schema := none
  responseSchema : Option Schema := none

/-- `isValidIdentifier` from src/generators/typeGenerator.ts:
`/^[a-zA-Z_$][a-zA-Z0-9_$]*$/`. -/
def isValidIdentifier (name : Str) : Bool :=
  match name with
  | [] => false
  | c :: t =>
    (c.isAlpha || c = '_' || c = '$') && t.all (fun d => d.isAlphanum || d = '_' || d = '$')

/-- `formatPropertyName` from src/generators/typeGenerator.ts: quote a name
that is not a valid bare identifier. -/
def formatPropertyName (name : Str) : Str :=
  if isValidIdentifier name then name else '\'' :: (name ++ ['\''])

/-- `extractRefName` from src/generators/typeGenerator.ts: strip the
OpenAPI 3.0 or Swagger 2.0 reference-path prefix. -/
def extractRefName (ref : Str) : Str :=
  if (indexOfSub "#/components/schemas/".toList ref).isSome then
    replaceFirst "#/components/schemas/".toList ref
  else
    replaceFirst "#/definitions/".toList ref

/-- JS string coercion of an enum literal: strings are single-quoted, numbers
render in decimal. -/
def enumLiteral : Str ⊕ Int → Str
  | .inl s => '\'' :: (s ++ ['\''])
  | .inr n => if n < 0 then '-' :: Nat.toDigits 10 n.natAbs else Nat.toDigits 10 n.toNat

mutual

/-- `schemaToTsType` from src/generators/typeGenerator.ts: render a schema as
an inline TypeScript type expression. -/
def schemaToTsType (schema : Schema) (config : Config) : Str :=
  match schema with
  | .mk ref ty _ props items required enum allOf addProps =>
    match ref with
    | some r => cleanTypeName (extractRefName r) config.typeNameSuffixFilter
    | none =>
      match allOf with
      | some l => List.intercalate " & ".toList (schemaListToTs l config)
      | none =>
        match enum with
        | some vs => List.intercalate " | ".toList (vs.map enumLiteral)
        | none =>
          if ty = some "string".toList then "string".toList
          else if ty = some "integer".toList || ty = some "number".toList then "number".toList
          else if ty = some "boolean".toList then "boolean".toList
          else if ty = some "array".toList then
            match items with
            | some s => schemaToTsType s config ++ "[]".toList
            | none => "unknown[]".toList
          else if ty = some "object".toList then
            match props with
            | some ps =>
              "\x7b ".toList ++
                List.intercalate "; ".toList (propsToTs ps required config) ++
                " \x7d".toList
            | none =>
              match addProps with
              | some (.inr s) =>
                "Record<string, ".toList ++ schemaToTsType s config ++ ">".toList
              | _ => "Record<string, unknown>".toList
          else "unknown".toList

/-- The inline rendering of an object's properties
(`k` + `?` when not required + `: ` + the property's type). -/
def propsToTs (ps : List (Str × Schema)) (required : Option (List Str)) (config : Config) :
    List Str :=
  match ps with
  | [] => []
  | (k, v) :: t =>
    (k ++ (if (required.getD []).contains k then [] else "?".toList) ++
      ": ".toList ++ schemaToTsType v config) :: propsToTs t required config

def schemaListToTs (l : List Schema) (config : Config) : List Str :=
  match l with
  | [] => []
  | s :: t => schemaToTsType s config :: schemaListToTs t config

end

/-- `generateProperty` from src/generators/typeGenerator.ts. -/
def generateProperty (name : Str) (schema : Schema) (required : Bool) (config : Config) : Str :=
  let propName := formatPropertyName name
  let optional := if required then [] else "?".toList
  let tsType := schemaToTsType schema config
  (match schema.description with
   | some d => "/** ".toList ++ d ++ " */\n  ".toList
   | none => []) ++ propName ++ optional ++ ": ".toList ++ tsType

/-- JS `Object.assign(target, source)` on property tables: a key already
present keeps its position and gets the new value, a new key is appended. -/
def assignProps (base extra : List (Str × Schema)) : List (Str × Schema) :=
  extra.foldl
    (fun acc kv =>
      if acc.any (fun p => p.1 = kv.1) then
        acc.map (fun p => if p.1 = kv.1 then kv else p)
      else acc ++ [kv])
    base

/-- The `allOf` accumulation loop of `generateTypeDefinition`: merged
properties, merged required names and the cleaned names of referenced
parents, in item order. -/
def allOfFold (items : List Schema) (config : Config) :
    List (Str × Schema) × List Str × List Str :=
  items.foldl
    (fun (st : List (Str × Schema) × List Str × List Str) item =>
      let withRef :=
        match item.ref with
        | some r =>
          (st.1, st.2.1,
            st.2.2 ++ [cleanTypeName (extractRefName r) config.typeNameSuffixFilter])
        | none => st
      let withProps :=
        match item.properties with
        | some ps => (assignProps withRef.1 ps, withRef.2.1, withRef.2.2)
        | none => withRef
      match item.required with
      | some r => (withProps.1, withProps.2.1 ++ r, withProps.2.2)
      | none => withProps)
    ([], [], [])

/-- The property lines of an interface body: excluded fields are skipped, the
rest render through `generateProperty` with two leading spaces. -/
def interfaceBodyLines (ps : List (Str × Schema)) (required : List Str) (config : Config) :
    List Str :=
  match ps with
  | [] => []
  | (propName, propSchema) :: t =>
    if config.excludeFields.contains propName then interfaceBodyLines t required config
    else
      ("  ".toList ++ generateProperty propName propSchema (required.contains propName) config)
        :: interfaceBodyLines t required config

/-- `generateTypeDefinition` from src/generators/typeGenerator.ts: render one
named type declaration (allOf / enum / object / primitive alias). -/
def generateTypeDefinition (name : Str) (schema : Schema) (config : Config) : Str :=
  let descLines : List Str :=
    match schema.description with
    | some d => ["/** ".toList ++ d ++ " */".toList]
    | none => []
  let lines : List Str :=
    match schema.allOf with
    | some items =>
      let folded := allOfFold items config
      let mergedProps := folded.1
      let mergedRequired := folded.2.1
      let extendsTypes := folded.2.2
      if !extendsTypes.isEmpty && mergedProps.isEmpty then
        ["export type ".toList ++ name ++ " = ".toList ++
          List.intercalate " & ".toList extendsTypes]
      else
        let extendsClause :=
          if !extendsTypes.isEmpty then
            " extends ".toList ++ List.intercalate ", ".toList extendsTypes
          else []
        ("export interface ".toList ++ name ++ extendsClause ++ " \x7b".toList)
          :: interfaceBodyLines mergedProps mergedRequired config ++ ["\x7d".toList]
    | none =>
      match schema.enum with
      | some vs =>
        ["export type ".toList ++ name ++ " = ".toList ++
          List.intercalate " | ".toList (vs.map enumLiteral)]
      | none =>
        if schema.type = some "object".toList || schema.properties.isSome then
          let propLines :=
            match schema.properties with
            | some ps => interfaceBodyLines ps (schema.required.getD []) config
            | none => []
          let addLines : List Str :=
            match schema.addProps with
            | some (.inl b) => if b then ["  [key: string]: unknown".toList] else []
            | some (.inr s) =>
              ["  [key: string]: ".toList ++ schemaToTsType s config]
            | none => []
          ("export interface ".toList ++ name ++ " \x7b".toList)
            :: (propLines ++ addLines) ++ ["\x7d".toList]
        else
          ["export type ".toList ++ name ++ " = ".toList ++ schemaToTsType schema config]
  List.intercalate "\n".toList (descLines ++ lines)

/-- `parameterToTsType` from src/generators/typeGenerator.ts. -/
def parameterToTsType (param : Parameter) : Str :=
  match param.enum with
  | some vs => List.intercalate " | ".toList (vs.map enumLiteral)
  | none =>
    if param.type = some "string".toList then "string".toList
    else if param.type = some "integer".toList || param.type = some "number".toList then
      "number".toList
    else if param.type = some "boolean".toList then "boolean".toList
    else if param.type = some "array".toList then
      if param.items.isSome then "string[]".toList else "unknown[]".toList
    else "unknown".toList

/-- The per-parameter lines of `generateQueryParamsType`: blank or "-" names
and excluded names are skipped; a description adds a doc line. -/
def queryParamLines (params : List Parameter) (config : Config) : List Str :=
  match params with
  | [] => []
  | param :: t =>
    if param.name.isEmpty || param.name = "-".toList then queryParamLines t config
    else if config.excludeFields.contains param.name then queryParamLines t config
    else
      let propName := formatPropertyName param.name
      let optional := if param.required = some true then [] else "?".toList
      let tsType := parameterToTsType param
      (match param.description with
       | some d => ["  /** ".toList ++ d ++ " */".toList]
       | none => []) ++
      [("  ".toList ++ propName ++ optional ++ ": ".toList ++ tsType)] ++
      queryParamLines t config

/-- `generateQueryParamsType` from src/generators/typeGenerator.ts. -/
def generateQueryParamsType (name : Str) (params : List Parameter) (config : Config) : Str :=
  List.intercalate "\n".toList
    (("export interface ".toList ++ name ++ " \x7b".toList)
      :: queryParamLines params config ++ ["\x7d".toList])

/-- The `typeMap` deduplication of `generateTypesFile`: a `Map` keyed by the
cleaned display name, populated only when the key is absent, iterated in
insertion order — so the first type seen with a given name survives. -/
def dedupTypes (types : List ParsedType) : List ParsedType :=
  types.foldl
    (fun acc t => if acc.any (fun u => u.name = t.name) then acc else acc ++ [t])
    []

/-- The query-params section of `generateTypesFile`: one type per API that has
query parameters and a params type name. -/
def queryParamsSection (apis : List ParsedAPI) (config : Config) : List Str :=
  match apis with
  | [] => []
  | api :: t =>
    if !api.queryParams.isEmpty &&
        (match api.paramsTypeName with | some n => !n.isEmpty | none => false) then
      generateQueryParamsType (api.paramsTypeName.getD []) api.queryParams config
        :: queryParamsSection t config
    else queryParamsSection t config

/-- `generateTypesFile` from src/generators/typeGenerator.ts: header comment,
one declaration per deduplicated type, then the query-params types, each
followed by a blank line, joined with newlines. -/
def generateTypesFile (types : List ParsedType) (apis : List ParsedAPI) (config : Config) :
    Str :=
  let header : List Str :=
    ["/**".toList, " * 此文件由 swagger-typegen 自动生成，请勿手动修改".toList,
     " */".toList, [] ]
  let typeLines : List Str :=
    ((dedupTypes types).map
      (fun t => [generateTypeDefinition t.name t.schema config, []])).flatten
  let paramLines : List Str :=
    ((queryParamsSection apis config).map (fun s => [s, []])).flatten
  List.intercalate "\n".toList (header ++ typeLines ++ paramLines)

/-- `ResponseObject` from src/types.ts. -/
structure ResponseObject where
  description : Str := []
  schema : Option Schema := none

/-- `Operation` from src/types.ts (the fields the parser reads). -/
structure Operation where
  tags : List Str := []
  summary : Option Str := none
  parameters : Option (List Parameter) := none
  responses : List (Str × ResponseObject) := []

/-- A JS `Set<string>` kept in insertion order: `add` appends when absent. -/
def addRef (refs : List Str) (r : Str) : List Str :=
  if refs.contains r then refs else refs ++ [r]

/-- JS object lookup `table[name]` on a definitions table. -/
def lookupDef (definitions : List (Str × Schema)) (name : Str) : Option Schema :=
  (definitions.find? (fun p => p.1 = name)).map (fun p => p.2)

/-- JS object lookup on a `properties` table. -/
def lookupProp (ps : List (Str × Schema)) (name : Str) : Option Schema :=
  (ps.find? (fun p => p.1 = name)).map (fun p => p.2)

/-- A JS string-or-null option is truthy only when present and non-empty. -/
def truthyStr : Option Str → Option Str
  | some s => if s.isEmpty then none else some s
  | none => none

/-- `applyTagMapping` from src/core/tagMapping.ts: `mapping[tag] || tag`. -/
def applyTagMapping (tag : Str) (mapping : List (Str × Str)) : Str :=
  match mapping.find? (fun p => p.1 = tag) with
  | some kv => if kv.2.isEmpty then tag else kv.2
  | none => tag

mutual

/-- `collectRefs` from src/core/parser.ts: the `$ref` paths of a schema: a
referencing node contributes its path and is not entered; otherwise
`properties` values, `items`, `allOf` members and an object-valued
`additionalProperties` are walked, in that order. -/
def collectRefs : Schema → List Str
  | .mk ref _ _ props items _ _ allOf addProps =>
    match ref with
    | some r => [r]
    | none =>
      (match props with
       | some ps => collectRefsProps ps
       | none => []) ++
      (match items with
       | some s => collectRefs s
       | none => []) ++
      (match allOf with
       | some l => collectRefsList l
       | none => []) ++
      (match addProps with
       | some (.inr s) => collectRefs s
       | _ => [])

def collectRefsProps : List (Str × Schema) → List Str
  | [] => []
  | (_, s) :: t => collectRefs s ++ collectRefsProps t

def collectRefsList : List Schema → List Str
  | [] => []
  | s :: t => collectRefs s ++ collectRefsList t

end

/-- `schemaTypeToTs` from src/core/parser.ts (the Swagger 2.0 variant):
`$ref` renders as the last dot-segment of the stripped path (`'unknown'`
when empty), primitives map to TS primitives, arrays recurse into `items`. -/
def schemaTypeToTs : Schema → Str
  | .mk ref ty _ _ items _ _ _ _ =>
    match ref with
    | some r =>
      let last := lastPart (splitChar '.' (replaceFirst "#/definitions/".toList r))
      if last.isEmpty then "unknown".toList else last
    | none =>
      if ty = some "string".toList then "string".toList
      else if ty = some "integer".toList || ty = some "number".toList then "number".toList
      else if ty = some "boolean".toList then "boolean".toList
      else if ty = some "array".toList then
        match items with
        | some s => schemaTypeToTs s ++ "[]".toList
        | none => "unknown[]".toList
      else if ty = some "object".toList then "Record<string, unknown>".toList
      else "unknown".toList

/-- `extractUnwrappedType` from src/core/parser.ts: resolve the referenced
envelope and take the unwrap field's type ($ref name, `Item[]` for arrays of
a reference, else the primitive mapping); without the field, the envelope's
own cleaned name. Returns the name (or `none` for a dangling reference)
together with the updated `usedRefs`. -/
def extractUnwrappedType (ref : Str) (unwrapField : Str)
    (definitions : List (Str × Schema)) (config : Config) (usedRefs : List Str) :
    Option Str × List Str :=
  let refName := replaceFirst "#/definitions/".toList ref
  match lookupDef definitions refName with
  | none => (none, usedRefs)
  | some schema =>
    match schema.properties with
    | some ps =>
      match lookupProp ps unwrapField with
      | some fieldSchema =>
        (match fieldSchema.ref with
         | some fr =>
           (some (cleanTypeName (replaceFirst "#/definitions/".toList fr)
              config.typeNameSuffixFilter), addRef usedRefs fr)
         | none =>
           if fieldSchema.type = some "array".toList ∧
               (fieldSchema.items.bind Schema.ref).isSome then
             match fieldSchema.items.bind Schema.ref with
             | some ir =>
               (some (cleanTypeName (replaceFirst "#/definitions/".toList ir)
                  config.typeNameSuffixFilter ++ "[]".toList), addRef usedRefs ir)
             | none => (some (schemaTypeToTs fieldSchema), usedRefs)
           else (some (schemaTypeToTs fieldSchema), usedRefs))
      | none =>
        (some (cleanTypeName refName config.typeNameSuffixFilter), usedRefs)
    | none => (some (cleanTypeName refName config.typeNameSuffixFilter), usedRefs)

/-- The parameter-classification state of `parseOperation`: path parameters,
query parameters, the body schema and body type name, and the reference set. -/
structure ParamState where
  pathParams : List Parameter := []
  queryParams : List Parameter := []
  bodySchema : Option Schema := none
  bodyTypeName : Option Str := none
  usedRefs : List Str := []

/-- The `operation.parameters` loop of `parseOperation`: `path` and `query`
parameters are collected in order; a `body` parameter with a schema sets the
body schema, and sets the body type name when the schema is a reference. -/
def paramsFold (params : List Parameter) (config : Config) (st : ParamState) : ParamState :=
  match params with
  | [] => st
  | param :: t =>
    let st' :=
      if param.inLoc = "path".toList then
        { st with pathParams := st.pathParams ++ [param] }
      else if param.inLoc = "query".toList then
        { st with queryParams := st.queryParams ++ [param] }
      else if param.inLoc = "body".toList ∧ param.schema.isSome then
        match param.schema with
        | some s =>
          let withBody := { st with bodySchema := some s }
          (match s.ref with
           | some r =>
             { withBody with
               usedRefs := addRef withBody.usedRefs r
               bodyTypeName := some (cleanTypeName (replaceFirst "#/definitions/".toList r)
                 config.typeNameSuffixFilter) }
           | none => withBody)
        | none => st
      else st
    paramsFold t config st'

/-- The `allOf` response loop of `parseOperation`: each referenced member is
recorded in `usedRefs`; when the unwrap field is configured and a member's
properties contain it, the response type name is taken from that field (a
reference's cleaned name, or the primitive mapping when the field has a
truthy `type`). -/
def allOfResponseFold (items : List Schema) (unwrapField : Option Str) (config : Config)
    (st : Option Str × List Str) : Option Str × List Str :=
  match items with
  | [] => st
  | item :: t =>
    let st₁ : Option Str × List Str :=
      match item.ref with
      | some r => (st.1, addRef st.2 r)
      | none => st
    let st₂ : Option Str × List Str :=
      match truthyStr unwrapField with
      | some uf =>
        (match item.properties.bind (fun ps => lookupProp ps uf) with
         | some dataSchema =>
           (match dataSchema.ref with
            | some dr =>
              (some (cleanTypeName (replaceFirst "#/definitions/".toList dr)
                 config.typeNameSuffixFilter), addRef st₁.2 dr)
            | none =>
              match truthyStr dataSchema.type with
              | some _ => (some (schemaTypeToTs dataSchema), st₁.2)
              | none => st₁)
         | none => st₁)
      | none => st₁
    allOfResponseFold t unwrapField config st₂

/-- The response-resolution part of `parseOperation` (Swagger 2.0): given the
success response's schema, produce the response type name and the updated
reference set, following the `allOf` / `$ref` / inline-`properties` branches
of the source. -/
def resolveResponse (responseSchema : Schema) (config : Config)
    (definitions : List (Str × Schema)) (usedRefs : List Str) : Option Str × List Str :=
  let unwrapField := config.unwrapResponseField
  match responseSchema.allOf with
  | some items => allOfResponseFold items unwrapField config (none, usedRefs)
  | none =>
    match responseSchema.ref with
    | some r =>
      let refs := addRef usedRefs r
      (match truthyStr unwrapField with
       | some uf => extractUnwrappedType r uf definitions config refs
       | none =>
         (some (cleanTypeName (replaceFirst "#/definitions/".toList r)
            config.typeNameSuffixFilter), refs))
    | none =>
      match responseSchema.properties, truthyStr unwrapField with
      | some ps, some uf =>
        (match lookupProp ps uf with
         | some dataSchema =>
           (match dataSchema.ref with
            | some dr =>
              (some (cleanTypeName (replaceFirst "#/definitions/".toList dr)
                 config.typeNameSuffixFilter), addRef usedRefs dr)
            | none =>
              match truthyStr dataSchema.type with
              | some _ => (some (schemaTypeToTs dataSchema), usedRefs)
              | none => (none, usedRefs))
         | none => (none, usedRefs))
      | _, _ => (none, usedRefs)

/-- `parseOperation` from src/core/parser.ts (Swagger 2.0): build a
`ParsedAPI` from a path, a verb and an operation; returns it together with
the updated `usedRefs` reference set. -/
def parseOperation (path : Str) (method : Str) (operation : Operation)
    (config : Config) (usedRefs : List Str) (definitions : List (Str × Schema))
    (tagMapping : List (Str × Str) := []) : ParsedAPI × List Str :=
  let originalTag :=
    match operation.tags with
    | t :: _ => if t.isEmpty then "default".toList else t
    | [] => "default".toList
  let mappedTag := applyTagMapping originalTag tagMapping
  let tag := tagToDirectoryName mappedTag
  let cleanPath := cleanPathPrefix path config.pathPrefixFilter
  let functionName := generateFunctionName method cleanPath
  let pst := paramsFold (operation.parameters.getD []) config { usedRefs := usedRefs }
  let paramsTypeName :=
    if !pst.queryParams.isEmpty then
      some (toPascalCase functionName ++ "Params".toList)
    else none
  let lookupResp : Str → Option ResponseObject := fun code =>
    (operation.responses.find? (fun p => p.1 = code)).map (fun p => p.2)
  let successResponse :=
    match lookupResp "200".toList with
    | some r => some r
    | none => lookupResp "201".toList
  let responseSchema := successResponse.bind ResponseObject.schema
  let resolved : Option Str × List Str :=
    match responseSchema with
    | some rs => resolveResponse rs config definitions pst.usedRefs
    | none => (none, pst.usedRefs)
  (⟨path, cleanPath, method, tag, functionName, operation.summary,
    paramsTypeName, pst.bodyTypeName, resolved.1,
    pst.pathParams, pst.queryParams, pst.bodySchema, responseSchema⟩,
   resolved.2)

/-- JS `array.pop()`: the last element and the remaining array. -/
def popLast? : List Str → Option (Str × List Str)
  | [] => none
  | [a] => some (a, [])
  | a :: b :: t =>
    match popLast? (b :: t) with
    | some (x, rest) => some (x, a :: rest)
    | none => none

/-- The reference-closure work-list loop of `parseSwagger2`
(src/core/parser.ts lines 159-196), with an explicit step budget: pop a
reference from the end, skip it when already processed, otherwise record it
and push the references collected from its definition. `none` means the
budget ran out before the work list emptied. -/
def drainRefs (definitions : List (Str × Schema)) :
    Nat → List Str → List Str → Option (List Str)
  | 0, processed, work => if work.isEmpty then some processed else none
  | fuel + 1, processed, work =>
    match popLast? work with
    | none => some processed
    | some (ref, rest) =>
      if processed.contains ref then drainRefs definitions fuel processed rest
      else
        let processed' := processed ++ [ref]
        let refName := replaceFirst "#/definitions/".toList ref
        match lookupDef definitions refName with
        | none => drainRefs definitions fuel processed' rest
        | some schema => drainRefs definitions fuel processed' (rest ++ collectRefs schema)

/-- `parseType` from src/core/parser.ts. -/
def parseType (name : Str) (schema : Schema) (config : Config) : ParsedType :=
  ⟨name, cleanTypeName name config.typeNameSuffixFilter, schema⟩

/-- `getModuleFromTypeName` from src/core/parser.ts: the camel-cased part
before the first dot, `"common"` for an unqualified name. -/
def getModuleFromTypeName (typeName : Str) : Str :=
  let parts := splitChar '.' typeName
  if parts.length > 1 then tagToDirectoryName (parts.headD []) else "common".toList

/-- `types.get(moduleName)!.push(parsedType)` over a `Map` kept as an
insertion-ordered association list. -/
def insertModule (m : List (Str × List ParsedType)) (k : Str) (v : ParsedType) :
    List (Str × List ParsedType) :=
  if m.any (fun p => p.1 = k) then
    m.map (fun p => if p.1 = k then (p.1, p.2 ++ [v]) else p)
  else m ++ [(k, [v])]

/-- The type-emission loop of `parseSwagger2`: each processed reference whose
definition exists contributes one `ParsedType` to its module's list, in
processed order. -/
def buildTypes (definitions : List (Str × Schema)) (processed : List Str)
    (config : Config) : List (Str × List ParsedType) :=
  processed.foldl
    (fun types ref =>
      let refName := replaceFirst "#/definitions/".toList ref
      match lookupDef definitions refName with
      | none => types
      | some schema =>
        insertModule types (getModuleFromTypeName refName) (parseType refName schema config))
    []

/-- `BUILTIN_TYPES` from src/generators/apiGenerator.ts. -/
def BUILTIN_TYPES : List Str :=
  ["unknown", "any", "void", "never", "string", "number", "boolean",
   "null", "undefined", "object", "symbol", "bigint",
   "Record", "Partial", "Required", "Readonly", "Pick", "Omit", "Array"].map String.toList

/-- `extractBaseTypeName` from src/generators/apiGenerator.ts:
`typeName.replace(/\[\]$/, '')` removes one trailing `[]`. -/
def extractBaseTypeName (typeName : Str) : Str :=
  if "[]".toList.isSuffixOf typeName then typeName.take (typeName.length - 2)
  else typeName

/-- JS default `Array.prototype.sort()` comparison on strings: lexicographic
by character code. -/
def strLe : Str → Str → Bool
  | [], _ => true
  | _ :: _, [] => false
  | a :: as, b :: bs =>
    if a.toNat < b.toNat then true
    else if b.toNat < a.toNat then false
    else strLe as bs

/-- Insert into a sorted list, before the first element not ≤ the new one
(the stable position). -/
def insertSorted (le : α → α → Bool) (a : α) : List α → List α
  | [] => [a]
  | b :: l => if le a b then a :: b :: l else b :: insertSorted le a l

/-- A stable sort by the boolean relation `le`, as JS `Array.prototype.sort`
with a consistent comparator. -/
def jsSort (le : α → α → Bool) : List α → List α
  | [] => []
  | a :: l => insertSorted le a (jsSort le l)

/-- One `if (api.xTypeName) { ... }` block of `generateImports`: a truthy
type name contributes its base name to the set unless it is built-in. -/
def addTypeName (ns : List Str) (o : Option Str) : List Str :=
  match truthyStr o with
  | some n =>
    let baseName := extractBaseTypeName n
    if BUILTIN_TYPES.contains baseName then ns else addRef ns baseName
  | none => ns

/-- The type-name collection of `generateImports`: the base names of each
API's params, body and response type names, skipping built-ins, deduplicated
in first-seen order. -/
def collectTypeNames (apis : List ParsedAPI) : List Str :=
  apis.foldl
    (fun names api =>
      addTypeName (addTypeName (addTypeName names api.paramsTypeName) api.bodyTypeName)
        api.responseTypeName)
    []

/-- `generateImports` from src/generators/apiGenerator.ts: the request-client
line, then — only when some type names are referenced — one type-only
line with the deduplicated names sorted by JS default order. -/
def generateImports (apis : List ParsedAPI) (typesImportPath : Str) (config : Config) : Str :=
  let requestLine :=
    "import \x7b ".toList ++ config.requestClient ++ " \x7d from '".toList ++
      config.requestImport ++ "'".toList
  let typeNames := collectTypeNames apis
  if typeNames.length > 0 then
    let typeImports := List.intercalate ", ".toList (jsSort strLe typeNames)
    requestLine ++ "\n".toList ++
      ("import type \x7b ".toList ++ typeImports ++ " \x7d from '".toList ++
        typesImportPath ++ "'".toList)
  else requestLine

/-- The prefix ordering of `loadConfig` (src/core/config.ts line 44):
`sort((a, b) => b.length - a.length)`, longest first, stable. -/
def sortPrefixes (prefixes : List Str) : List Str :=
  jsSort (fun a b => b.length ≤ a.length) prefixes

section StringLemmas

/-- `indexOfSub` finds position `n` when the pattern occurs there and at no
earlier position. -/
theorem indexOfSub_eq_some (p : Str) :
    ∀ (n : Nat) (l : Str),
      (∀ i < n, p.isPrefixOf (l.drop i) = false) →
      p.isPrefixOf (l.drop n) = true →
      indexOfSub p l = some n := by
  intro n
  induction n with
  | zero =>
    intro l _ h2
    cases l with
    | nil => simpa [indexOfSub] using h2
    | cons c t =>
      have hp : p <+: c :: t := by simpa using h2
      simp [indexOfSub, hp]
  | succ n ih =>
    intro l h1 h2
    cases l with
    | nil =>
      have h0 := h1 0 (Nat.succ_pos n)
      rw [List.drop_nil] at h0 h2
      rw [h0] at h2
      exact absurd h2 (by decide)
    | cons c t =>
      have h0 := h1 0 (Nat.succ_pos n)
      simp only [List.drop_zero] at h0
      have ht : indexOfSub p t = some n := by
        apply ih
        · intro i hi
          have := h1 (i + 1) (by omega)
          simpa using this
        · simpa using h2
      simp [indexOfSub, h0, ht]

/-- The pattern occurs at the junction of `a ++ p ++ b`. -/
theorem isPrefixOf_drop_append (a p b : Str) :
    p.isPrefixOf ((a ++ (p ++ b)).drop a.length) = true := by
  rw [List.drop_left]
  exact List.isPrefixOf_iff_prefix.mpr (List.prefix_append p b)

/-- `indexOfSub` on a decomposed text with no earlier occurrence. -/
theorem indexOfSub_decomp (a p b : Str)
    (h : ∀ i < a.length, p.isPrefixOf ((a ++ (p ++ b)).drop i) = false) :
    indexOfSub p (a ++ (p ++ b)) = some a.length :=
  indexOfSub_eq_some p a.length (a ++ (p ++ b)) h (isPrefixOf_drop_append a p b)

/-- Recomposition of `take`/`drop` slices used by the merge. -/
theorem take_drop_recompose (l : Str) (a b : Nat) (hab : a ≤ b) :
    l.take a ++ ((l.take b).drop a ++ l.drop b) = l := by
  have h1 : l.take a = (l.take b).take a := by
    rw [List.take_take, Nat.min_eq_left hab]
  rw [h1, ← List.append_assoc, List.take_append_drop, List.take_append_drop]

end StringLemmas

/-- C1: for every prior function-file text containing both sentinel markers
(at the shown first occurrences) and every newly generated text containing
both markers, `mergeWithExisting` returns the prior text's prefix strictly
before the start marker, then the new text's region from its start marker
through the end of its end marker verbatim, then the prior text's suffix
strictly after its end marker — so hand-added content outside the markers is
preserved byte-identically. -/
theorem mergeWithExisting_preserves_outside
    (e1 e2 e3 n1 n2 n3 : Str)
    (heS : ∀ i < e1.length,
      AUTO_GEN_START.isPrefixOf
        ((e1 ++ (AUTO_GEN_START ++ (e2 ++ (AUTO_GEN_END ++ e3)))).drop i) = false)
    (heE : ∀ i < e1.length + AUTO_GEN_START.length + e2.length,
      AUTO_GEN_END.isPrefixOf
        ((e1 ++ (AUTO_GEN_START ++ (e2 ++ (AUTO_GEN_END ++ e3)))).drop i) = false)
    (hnS : ∀ i < n1.length,
      AUTO_GEN_START.isPrefixOf
        ((n1 ++ (AUTO_GEN_START ++ (n2 ++ (AUTO_GEN_END ++ n3)))).drop i) = false)
    (hnE : ∀ i < n1.length + AUTO_GEN_START.length + n2.length,
      AUTO_GEN_END.isPrefixOf
        ((n1 ++ (AUTO_GEN_START ++ (n2 ++ (AUTO_GEN_END ++ n3)))).drop i) = false) :
    mergeWithExisting (e1 ++ (AUTO_GEN_START ++ (e2 ++ (AUTO_GEN_END ++ e3))))
        (n1 ++ (AUTO_GEN_START ++ (n2 ++ (AUTO_GEN_END ++ n3))))
      = e1 ++ ((AUTO_GEN_START ++ (n2 ++ AUTO_GEN_END)) ++ e3) := by
  have hS1 :
      indexOfSub AUTO_GEN_START (e1 ++ (AUTO_GEN_START ++ (e2 ++ (AUTO_GEN_END ++ e3))))
        = some e1.length :=
    indexOfSub_decomp e1 AUTO_GEN_START (e2 ++ (AUTO_GEN_END ++ e3)) heS
  have hE1 :
      indexOfSub AUTO_GEN_END (e1 ++ (AUTO_GEN_START ++ (e2 ++ (AUTO_GEN_END ++ e3))))
        = some (e1.length + AUTO_GEN_START.length + e2.length) := by
    have h := indexOfSub_decomp (e1 ++ (AUTO_GEN_START ++ e2)) AUTO_GEN_END e3
      (by
        intro i hi
        have hi' : i < e1.length + AUTO_GEN_START.length + e2.length := by
          simpa [Nat.add_assoc] using hi
        have := heE i hi'
        simpa [List.append_assoc] using this)
    simpa [List.append_assoc, Nat.add_assoc] using h
  have hS2 :
      indexOfSub AUTO_GEN_START (n1 ++ (AUTO_GEN_START ++ (n2 ++ (AUTO_GEN_END ++ n3))))
        = some n1.length :=
    indexOfSub_decomp n1 AUTO_GEN_START (n2 ++ (AUTO_GEN_END ++ n3)) hnS
  have hE2 :
      indexOfSub AUTO_GEN_END (n1 ++ (AUTO_GEN_START ++ (n2 ++ (AUTO_GEN_END ++ n3))))
        = some (n1.length + AUTO_GEN_START.length + n2.length) := by
    have h := indexOfSub_decomp (n1 ++ (AUTO_GEN_START ++ n2)) AUTO_GEN_END n3
      (by
        intro i hi
        have hi' : i < n1.length + AUTO_GEN_START.length + n2.length := by
          simpa [Nat.add_assoc] using hi
        have := hnE i hi'
        simpa [List.append_assoc] using this)
    simpa [List.append_assoc, Nat.add_assoc] using h
  rw [mergeWithExisting, hS1, hE1, hS2, hE2]
  have htake : (n1 ++ (AUTO_GEN_START ++ (n2 ++ (AUTO_GEN_END ++ n3)))).take
      (n1.length + AUTO_GEN_START.length + n2.length + AUTO_GEN_END.length)
      = n1 ++ (AUTO_GEN_START ++ (n2 ++ AUTO_GEN_END)) := by
    have : n1 ++ (AUTO_GEN_START ++ (n2 ++ (AUTO_GEN_END ++ n3)))
        = (n1 ++ (AUTO_GEN_START ++ (n2 ++ AUTO_GEN_END))) ++ n3 := by
      simp [List.append_assoc]
    rw [this]
    exact List.take_left' (by simp [List.length_append]; omega)
  have hdrop : (e1 ++ (AUTO_GEN_START ++ (e2 ++ (AUTO_GEN_END ++ e3)))).drop
      (e1.length + AUTO_GEN_START.length + e2.length + AUTO_GEN_END.length) = e3 := by
    have : e1 ++ (AUTO_GEN_START ++ (e2 ++ (AUTO_GEN_END ++ e3)))
        = (e1 ++ (AUTO_GEN_START ++ (e2 ++ AUTO_GEN_END))) ++ e3 := by
      simp [List.append_assoc]
    rw [this]
    exact List.drop_left' (by simp [List.length_append]; omega)
  simp only [htake, hdrop, List.take_left]
  rw [List.drop_left]
  simp [List.append_assoc]

/-- Witness for C1 at a concrete prior file and a concrete regeneration. -/
theorem mergeWithExisting_preserves_outside_witness :
    mergeWithExisting
        ("// A\n".toList ++ (AUTO_GEN_START ++ ("\nold\n".toList ++
          (AUTO_GEN_END ++ "\nexport const custom = 1\n".toList))))
        ("// B\n".toList ++ (AUTO_GEN_START ++ ("\nnew\n".toList ++
          (AUTO_GEN_END ++ "\ntail\n".toList))))
      = "// A\n".toList ++ ((AUTO_GEN_START ++ ("\nnew\n".toList ++ AUTO_GEN_END)) ++
          "\nexport const custom = 1\n".toList) :=
  mergeWithExisting_preserves_outside _ _ _ _ _ _
    (by decide) (by decide) (by decide) (by decide)

/-- C6: the normalizer and the emitters are pure functions (two runs on the
same input are byte-identical), and `mergeWithExisting` applied to a prior
text and that same text returns it unchanged — when the text's first start
marker is not after its first end marker, and trivially when it has no
marker — so regenerating over an unchanged prior output produces no change. -/
theorem emitters_deterministic_merge_stable :
    (∀ (types : List ParsedType) (apis : List ParsedAPI) (config : Config),
      generateTypesFile types apis config = generateTypesFile types apis config) ∧
    (∀ (path method : Str) (op : Operation) (config : Config) (usedRefs : List Str)
        (definitions : List (Str × Schema)) (tagMapping : List (Str × Str)),
      parseOperation path method op config usedRefs definitions tagMapping
        = parseOperation path method op config usedRefs definitions tagMapping) ∧
    (∀ (x : Str) (s e : Nat),
      indexOfSub AUTO_GEN_START x = some s →
      indexOfSub AUTO_GEN_END x = some e →
      s ≤ e →
      mergeWithExisting x x = x) ∧
    (∀ x : Str, indexOfSub AUTO_GEN_START x = none → mergeWithExisting x x = x) := by
  refine ⟨fun _ _ _ => rfl, fun _ _ _ _ _ _ _ => rfl, ?_, ?_⟩
  · intro x s e hs he hse
    rw [mergeWithExisting, hs, he]
    simpa using take_drop_recompose x s (e + AUTO_GEN_END.length) (by omega)
  · intro x hs
    rw [mergeWithExisting, hs]

/-- Witness for C6 on a concrete marked text. -/
theorem emitters_deterministic_merge_stable_witness :
    mergeWithExisting (AUTO_GEN_START ++ ('\n' :: AUTO_GEN_END))
        (AUTO_GEN_START ++ ('\n' :: AUTO_GEN_END))
      = AUTO_GEN_START ++ ('\n' :: AUTO_GEN_END) :=
  emitters_deterministic_merge_stable.2.2.1
    (AUTO_GEN_START ++ ('\n' :: AUTO_GEN_END)) 0 32
    (by decide) (by decide) (by decide)

section DedupLemmas

/-- The `typeMap` fold keeps, for each display name, exactly the first type
seen with that name (stated over an arbitrary accumulator). -/
theorem dedupTypes_foldl_filter (n : Str) :
    ∀ (ts : List ParsedType) (acc : List ParsedType),
      (ts.foldl (fun acc t => if acc.any (fun u => u.name = t.name) then acc else acc ++ [t])
          acc).filter (fun t => t.name = n)
        = acc.filter (fun t => t.name = n) ++
            (if acc.any (fun u => u.name = n) then []
             else (ts.find? (fun t => t.name = n)).toList) := by
  intro ts
  induction ts with
  | nil =>
    intro acc
    by_cases h : (acc.any (fun u => u.name = n)) = true <;> simp [h]
  | cons t ts ih =>
    intro acc
    simp only [List.foldl_cons]
    by_cases hdup : (acc.any (fun u => u.name = t.name)) = true
    · rw [if_pos hdup, ih]
      by_cases htn : t.name = n
      · subst htn
        simp [hdup, List.find?_cons]
      · simp only [List.find?_cons]
        have : (decide (t.name = n)) = false := by simp [htn]
        simp [this]
    · rw [if_neg hdup, ih]
      have hfilter : (acc ++ [t]).filter (fun t => t.name = n)
          = acc.filter (fun t => t.name = n) ++ (if t.name = n then [t] else []) := by
        by_cases htn : t.name = n <;> simp [List.filter_append, htn]
      by_cases htn : t.name = n
      · subst htn
        have hacc : (acc.any (fun u => u.name = t.name)) = false := by
          simpa using hdup
        have hacc' : ((acc ++ [t]).any (fun u => u.name = t.name)) = true := by
          simp [List.any_append]
        simp [hfilter, hacc, hacc', List.find?_cons]
      · have heq : ((acc ++ [t]).any (fun u => u.name = n))
            = (acc.any (fun u => u.name = n)) := by
          simp [List.any_append, htn]
        simp only [hfilter, htn, if_false, List.append_nil, heq, List.find?_cons]
        have : (decide (t.name = n)) = false := by simp [htn]
        simp [this]

/-- Pairwise distinctness of display names. -/
def namesNodup (l : List ParsedType) : Prop :=
  l.Pairwise (fun a b => a.name ≠ b.name)

theorem dedupTypes_namesNodup (ts : List ParsedType) : namesNodup (dedupTypes ts) := by
  suffices h : ∀ (ts acc : List ParsedType), namesNodup acc →
      namesNodup (ts.foldl
        (fun acc t => if acc.any (fun u => u.name = t.name) then acc else acc ++ [t]) acc) by
    exact h ts [] (by simp [namesNodup])
  intro ts
  induction ts with
  | nil => intro acc h; simpa using h
  | cons t ts ih =>
    intro acc hacc
    simp only [List.foldl_cons]
    by_cases hdup : (acc.any (fun u => u.name = t.name)) = true
    · rw [if_pos hdup]; exact ih acc hacc
    · rw [if_neg hdup]
      apply ih
      rw [namesNodup, List.pairwise_append]
      refine ⟨hacc, by simp, ?_⟩
      intro a ha b hb
      simp only [List.mem_singleton] at hb
      subst hb
      intro hcontra
      apply hdup
      simp only [List.any_eq_true]
      exact ⟨a, ha, by simp [hcontra]⟩

theorem dedupTypes_eq_self_of_nodup (l : List ParsedType) (h : namesNodup l) :
    dedupTypes l = l := by
  suffices haux : ∀ (ts acc : List ParsedType), namesNodup (acc ++ ts) →
      ts.foldl (fun acc t => if acc.any (fun u => u.name = t.name) then acc else acc ++ [t]) acc
        = acc ++ ts by
    exact haux l [] (by simpa using h)
  intro ts
  induction ts with
  | nil => intro acc _; simp
  | cons t ts ih =>
    intro acc h
    have hnot : (acc.any (fun u => u.name = t.name)) = false := by
      rw [namesNodup, List.pairwise_append] at h
      rcases h with ⟨_, _, hcross⟩
      simp only [List.any_eq_false]
      intro a ha
      have := hcross a ha t (by simp)
      simp [this]
    simp only [List.foldl_cons, hnot, if_false, Bool.false_eq_true]
    rw [ih (acc ++ [t]) (by simpa using h)]
    simp

end DedupLemmas

/-- C2 (amended): when distinct `ParsedType`s share a cleaned display name,
`generateTypesFile` emits exactly one declaration for that name — the one of
the first such type processed (first-seen wins): the deduplicated list keeps
exactly `find?`'s result for each name, and emission only depends on the
deduplicated list. -/
theorem generateTypesFile_first_seen_wins :
    (∀ (types : List ParsedType) (n : Str),
      (dedupTypes types).filter (fun t => t.name = n)
        = (types.find? (fun t => t.name = n)).toList) ∧
    (∀ (types : List ParsedType) (apis : List ParsedAPI) (config : Config),
      generateTypesFile types apis config = generateTypesFile (dedupTypes types) apis config) := by
  constructor
  · intro types n
    have := dedupTypes_foldl_filter n types []
    simpa [dedupTypes] using this
  · intro types apis config
    rw [generateTypesFile, generateTypesFile,
      dedupTypes_eq_self_of_nodup (dedupTypes types) (dedupTypes_namesNodup types)]

/-- A minimal configuration for concrete evaluations. -/
def cfgPlain : Config :=
  ⟨"requestClient".toList, "@/utils/request".toList, [], [], [], none, [], []⟩

/-- Two distinct source types whose cleaned display names collide. -/
def collidingA : ParsedType :=
  ⟨"request.Foo".toList, "Foo".toList, objSchema [("a".toList, typeSchema "string".toList)]⟩

def collidingB : ParsedType :=
  ⟨"response.Foo".toList, "Foo".toList, objSchema [("b".toList, typeSchema "number".toList)]⟩

/-- Counterexample to C2 as stated: with two distinct `ParsedType`s cleaning
to the display name `Foo`, `generateTypesFile` emits the declaration of the
first one processed, not the last — the output over `[A, B]` equals the
output over `[A]` alone and differs from the output over `[B]` alone. -/
theorem generateTypesFile_last_seen_counterexample :
    generateTypesFile [collidingA, collidingB] [] cfgPlain
        = generateTypesFile [collidingA] [] cfgPlain ∧
      generateTypesFile [collidingA, collidingB] [] cfgPlain
        ≠ generateTypesFile [collidingB] [] cfgPlain := by
  constructor
  · decide
  · decide

/-- The configuration of the C3 scenario: `token` is an excluded field. -/
def cfgExcl : Config :=
  ⟨"requestClient".toList, "@/utils/request".toList, [], [], ["token".toList], none, [], []⟩

/-- A schema whose top level and whose nested inline object both carry a
`token` property. -/
def nestedTokenSchema : Schema :=
  objSchema
    [("wrapper".toList, objSchema [("token".toList, typeSchema "string".toList)]),
     ("token".toList, typeSchema "string".toList)]

/-- C3 evaluated at the failing input: `generateTypeDefinition` omits the
excluded `token` field at the top level, but the inline object expression
produced by `schemaToTsType` for the nested object still contains it —
excluded fields are not omitted from inline rendering. -/
theorem excludeFields_nested_inline_leak :
    schemaToTsType (objSchema [("token".toList, typeSchema "string".toList)]) cfgExcl
        = "\x7b token?: string \x7d".toList ∧
      generateTypeDefinition "Foo".toList nestedTokenSchema cfgExcl
        = "export interface Foo \x7b\n  wrapper?: \x7b token?: string \x7d\n\x7d".toList := by
  constructor
  · decide
  · decide

/-- C10: `removeTypeSuffix` strips at most one suffix per call — the first
suffix in list order that the name ends with — and returns the name
unchanged when none matches; consequently a qualified name whose
Pascal-cased last dot-segment equals a configured suffix cleans to the empty
display name. -/
theorem removeTypeSuffix_at_most_one :
    (∀ (name : Str) (suffixes : List Str),
      (∀ s ∈ suffixes, s.isSuffixOf name = false) →
      removeTypeSuffix name suffixes = name) ∧
    (∀ (name : Str) (pre : List Str) (s : Str) (post : List Str),
      (∀ s' ∈ pre, s'.isSuffixOf name = false) →
      s.isSuffixOf name = true → s ≠ [] →
      removeTypeSuffix name (pre ++ s :: post) = name.take (name.length - s.length)) ∧
    cleanTypeName "response.Response".toList ["Response".toList] = [] := by
  refine ⟨?_, ?_, by decide⟩
  · intro name suffixes h
    induction suffixes with
    | nil => rfl
    | cons s rest ih =>
      have hs := h s (by simp)
      rw [removeTypeSuffix, hs]
      · exact ih fun s' hs' => h s' (by simp [hs'])
  · intro name pre s post hpre hs hne
    induction pre with
    | nil =>
      rw [List.nil_append, removeTypeSuffix, hs]
      simp only [if_true]
      rw [if_neg (by simpa [List.length_eq_zero] using hne)]
    | cons p pre ih =>
      have hp := hpre p (by simp)
      rw [List.cons_append, removeTypeSuffix, hp]
      · exact ih fun s' hs' => hpre s' (by simp [hs'])

section SortLemmas

variable {α : Type _}

theorem insertSorted_perm (le : α → α → Bool) (a : α) :
    ∀ l : List α, (insertSorted le a l).Perm (a :: l) := by
  intro l
  induction l with
  | nil => simp [insertSorted]
  | cons b l ih =>
    rw [insertSorted]
    by_cases h : le a b = true
    · rw [if_pos h]
    · rw [if_neg h]
      exact (ih.cons b).trans (List.Perm.swap _ _ _)

theorem jsSort_perm (le : α → α → Bool) :
    ∀ l : List α, (jsSort le l).Perm l := by
  intro l
  induction l with
  | nil => simp [jsSort]
  | cons a l ih =>
    rw [jsSort]
    exact (insertSorted_perm le a (jsSort le l)).trans (ih.cons a)

theorem mem_insertSorted (le : α → α → Bool) (a x : α) (l : List α) :
    x ∈ insertSorted le a l ↔ x = a ∨ x ∈ l := by
  rw [(insertSorted_perm le a l).mem_iff, List.mem_cons]

theorem insertSorted_pairwise (le : α → α → Bool)
    (htotal : ∀ a b, (le a b || le b a) = true)
    (htrans : ∀ a b c, le a b = true → le b c = true → le a c = true)
    (a : α) :
    ∀ l : List α, l.Pairwise (fun x y => le x y = true) →
      (insertSorted le a l).Pairwise (fun x y => le x y = true) := by
  intro l
  induction l with
  | nil => intro _; simp [insertSorted]
  | cons b l ih =>
    intro h
    rw [List.pairwise_cons] at h
    rcases h with ⟨hb, hl⟩
    rw [insertSorted]
    by_cases hab : le a b = true
    · rw [if_pos hab]
      rw [List.pairwise_cons]
      refine ⟨?_, List.pairwise_cons.mpr ⟨hb, hl⟩⟩
      intro x hx
      rcases List.mem_cons.mp hx with rfl | hx
      · exact hab
      · exact htrans a b x hab (hb x hx)
    · rw [if_neg hab]
      rw [List.pairwise_cons]
      refine ⟨?_, ih hl⟩
      intro x hx
      have hmem := (mem_insertSorted le a x l).mp hx
      rcases hmem with rfl | hx'
      · have h2 := htotal x b
        simp [hab] at h2
        exact h2
      · exact hb x hx'

theorem jsSort_pairwise (le : α → α → Bool)
    (htotal : ∀ a b, (le a b || le b a) = true)
    (htrans : ∀ a b c, le a b = true → le b c = true → le a c = true) :
    ∀ l : List α, (jsSort le l).Pairwise (fun x y => le x y = true) := by
  intro l
  induction l with
  | nil => simp [jsSort]
  | cons a l ih =>
    rw [jsSort]
    exact insertSorted_pairwise le htotal htrans a (jsSort le l) ih

theorem jsSort_nodup (le : α → α → Bool) (l : List α) (h : l.Nodup) :
    (jsSort le l).Nodup :=
  (jsSort_perm le l).nodup_iff.mpr h

end SortLemmas

/-- C7: over a strip-list sorted longest-first, `cleanPathPrefix` strips a
longest matching configured prefix (any other matching prefix is no longer);
`loadConfig`'s pre-sort produces such a longest-first list; and on strip-list
`["/api/v1", "/api"]` path `/api/v1/orders` cleans to `/orders`, not
`/v1/orders`. -/
theorem cleanPathPrefix_longest_wins :
    (∀ (path : Str) (prefixes : List Str),
      prefixes.Pairwise (fun a b => b.length ≤ a.length) →
      ∀ p ∈ prefixes, p.isPrefixOf path = true →
      ∃ q, q ∈ prefixes ∧ q.isPrefixOf path = true ∧
        (∀ r ∈ prefixes, r.isPrefixOf path = true → r.length ≤ q.length) ∧
        cleanPathPrefix path prefixes =
          (if (path.drop q.length).take 1 = ['/'] then path.drop q.length
           else '/' :: path.drop q.length)) ∧
    (∀ l : List Str, (sortPrefixes l).Pairwise (fun a b => b.length ≤ a.length)) ∧
    cleanPathPrefix "/api/v1/orders".toList ["/api/v1".toList, "/api".toList]
      = "/orders".toList := by
  refine ⟨?_, ?_, by decide⟩
  · intro path prefixes
    induction prefixes with
    | nil => intro _ p hp; simp at hp
    | cons px rest ih =>
      intro hsorted p hp hmatch
      rw [List.pairwise_cons] at hsorted
      rcases hsorted with ⟨hhead, hrest⟩
      by_cases hm : px.isPrefixOf path = true
      · refine ⟨px, by simp, hm, ?_, ?_⟩
        · intro r hr _
          rcases List.mem_cons.mp hr with rfl | hr
          · exact Nat.le_refl _
          · exact hhead r hr
        · rw [cleanPathPrefix, if_pos hm]
      · have hp' : p ∈ rest := by
          rcases List.mem_cons.mp hp with rfl | h
          · exact absurd hmatch hm
          · exact h
        rcases ih hrest p hp' hmatch with ⟨q, hq, hqm, hbound, heq⟩
        refine ⟨q, by simp [hq], hqm, ?_, ?_⟩
        · intro r hr hrm
          rcases List.mem_cons.mp hr with rfl | hr
          · exact absurd hrm hm
          · exact hbound r hr hrm
        · rw [cleanPathPrefix, if_neg hm, heq]
  · intro l
    have h := jsSort_pairwise (fun a b : Str => decide (b.length ≤ a.length))
      (by intro a b; simp; omega)
      (by intro a b c; simp; omega) l
    exact h.imp (by simp)

/-- Witness for C7's longest-match statement at the documented example. -/
theorem cleanPathPrefix_longest_wins_witness :
    ∃ q, q ∈ ["/api/v1".toList, "/api".toList] ∧
      q.isPrefixOf "/api/v1/orders".toList = true ∧
      (∀ r ∈ ["/api/v1".toList, "/api".toList],
        r.isPrefixOf "/api/v1/orders".toList = true → r.length ≤ q.length) ∧
      cleanPathPrefix "/api/v1/orders".toList ["/api/v1".toList, "/api".toList]
        = (if (("/api/v1/orders".toList).drop q.length).take 1 = ['/']
           then ("/api/v1/orders".toList).drop q.length
           else '/' :: ("/api/v1/orders".toList).drop q.length) :=
  cleanPathPrefix_longest_wins.1 "/api/v1/orders".toList
    ["/api/v1".toList, "/api".toList] (by decide) "/api/v1".toList (by decide) (by decide)

section StrLeLemmas

theorem strLe_total : ∀ a b : Str, (strLe a b || strLe b a) = true := by
  intro a
  induction a with
  | nil => intro b; simp [strLe]
  | cons x xs ih =>
    intro b
    cases b with
    | nil => simp [strLe]
    | cons y ys =>
      rw [strLe, strLe]
      by_cases hxy : x.toNat < y.toNat
      · simp [hxy]
      · by_cases hyx : y.toNat < x.toNat
        · simp [hxy, hyx]
        · simp only [if_neg hxy, if_neg hyx]
          exact ih ys

theorem strLe_trans : ∀ a b c : Str,
    strLe a b = true → strLe b c = true → strLe a c = true := by
  intro a
  induction a with
  | nil => intro b c _ _; rfl
  | cons x xs ih =>
    intro b c h1 h2
    cases b with
    | nil => simp [strLe] at h1
    | cons y ys =>
      cases c with
      | nil => simp [strLe] at h2
      | cons z zs =>
        rw [strLe] at h1 h2 ⊢
        by_cases hxy : x.toNat < y.toNat
        · by_cases hyz : y.toNat < z.toNat
          · rw [if_pos (by omega)]
          · rw [if_pos hxy] at h1
            rw [if_neg hyz] at h2
            by_cases hzy : z.toNat < y.toNat
            · rw [if_pos hzy] at h2; exact absurd h2 (by simp)
            · rw [if_pos (by omega)]
        · rw [if_neg hxy] at h1
          by_cases hyx : y.toNat < x.toNat
          · rw [if_pos hyx] at h1; exact absurd h1 (by simp)
          · rw [if_neg hyx] at h1
            by_cases hyz : y.toNat < z.toNat
            · rw [if_pos (by omega)]
            · rw [if_neg hyz] at h2
              by_cases hzy : z.toNat < y.toNat
              · rw [if_pos hzy] at h2; exact absurd h2 (by simp)
              · rw [if_neg hzy] at h2
                rw [if_neg (by omega), if_neg (by omega)]
                exact ih ys zs h1 h2

end StrLeLemmas

section ImportLemmas

theorem addRef_mem (refs : List Str) (r x : Str) :
    x ∈ addRef refs r ↔ x ∈ refs ∨ x = r := by
  rw [addRef]
  by_cases h : refs.contains r
  · rw [if_pos h]
    constructor
    · exact Or.inl
    · rintro (hx | rfl)
      · exact hx
      · simpa using h
  · rw [if_neg h]
    simp

theorem addRef_nodup (refs : List Str) (r : Str) (h : refs.Nodup) :
    (addRef refs r).Nodup := by
  rw [addRef]
  by_cases hc : refs.contains r
  · rw [if_pos hc]; exact h
  · rw [if_neg hc]
    refine List.Nodup.append h (List.nodup_singleton r) ?_
    intro a ha hb
    rw [List.mem_singleton] at hb
    subst hb
    exact hc (by simpa using ha)

theorem addTypeName_mem (ns : List Str) (o : Option Str) (n : Str) :
    n ∈ addTypeName ns o ↔
      n ∈ ns ∨ (∃ m, truthyStr o = some m ∧ extractBaseTypeName m = n ∧
        BUILTIN_TYPES.contains n = false) := by
  rw [addTypeName]
  cases ht : truthyStr o with
  | none => simp
  | some m =>
    simp only
    by_cases hb : BUILTIN_TYPES.contains (extractBaseTypeName m) = true
    · rw [if_pos hb]
      constructor
      · exact Or.inl
      · rintro (hx | ⟨m', hm', rfl, hnb⟩)
        · exact hx
        · rw [Option.some_inj] at hm'
          subst hm'
          rw [hb] at hnb
          exact absurd hnb (by simp)
    · rw [if_neg hb]
      rw [addRef_mem]
      constructor
      · rintro (hx | rfl)
        · exact Or.inl hx
        · exact Or.inr ⟨m, rfl, rfl, by simpa using hb⟩
      · rintro (hx | ⟨m', hm', rfl, _⟩)
        · exact Or.inl hx
        · rw [Option.some_inj] at hm'
          subst hm'
          exact Or.inr rfl

theorem addTypeName_nodup (ns : List Str) (o : Option Str) (h : ns.Nodup) :
    (addTypeName ns o).Nodup := by
  rw [addTypeName]
  cases truthyStr o with
  | none => exact h
  | some m =>
    simp only
    by_cases hb : BUILTIN_TYPES.contains (extractBaseTypeName m) = true
    · rw [if_pos hb]; exact h
    · rw [if_neg hb]; exact addRef_nodup ns _ h

/-- The base type names an API references through its params, body and
response type names (JS-truthy ones only). -/
def referencedBaseNames (api : ParsedAPI) : List Str :=
  ([api.paramsTypeName, api.bodyTypeName, api.responseTypeName].filterMap truthyStr).map
    extractBaseTypeName

theorem collectTypeNames_step_mem (ns : List Str) (api : ParsedAPI) (n : Str) :
    n ∈ addTypeName (addTypeName (addTypeName ns api.paramsTypeName) api.bodyTypeName)
        api.responseTypeName ↔
      n ∈ ns ∨ (BUILTIN_TYPES.contains n = false ∧ n ∈ referencedBaseNames api) := by
  rw [addTypeName_mem, addTypeName_mem, addTypeName_mem]
  simp only [referencedBaseNames, List.mem_map, List.mem_filterMap,
    List.mem_cons, List.not_mem_nil, or_false]
  constructor
  · rintro (((h | ⟨m, hm, rfl, hb⟩) | ⟨m, hm, rfl, hb⟩) | ⟨m, hm, rfl, hb⟩)
    · exact Or.inl h
    · exact Or.inr ⟨hb, m, ⟨api.paramsTypeName, Or.inl rfl, hm⟩, rfl⟩
    · exact Or.inr ⟨hb, m, ⟨api.bodyTypeName, Or.inr (Or.inl rfl), hm⟩, rfl⟩
    · exact Or.inr ⟨hb, m, ⟨api.responseTypeName, Or.inr (Or.inr rfl), hm⟩, rfl⟩
  · rintro (h | ⟨hb, m, ⟨o, ho, hm⟩, rfl⟩)
    · exact Or.inl (Or.inl (Or.inl h))
    · rcases ho with rfl | rfl | rfl
      · exact Or.inl (Or.inl (Or.inr ⟨m, hm, rfl, hb⟩))
      · exact Or.inl (Or.inr ⟨m, hm, rfl, hb⟩)
      · exact Or.inr ⟨m, hm, rfl, hb⟩

theorem collectTypeNames_aux_mem (n : Str) :
    ∀ (apis : List ParsedAPI) (acc : List Str),
      (n ∈ apis.foldl
          (fun names api =>
            addTypeName (addTypeName (addTypeName names api.paramsTypeName) api.bodyTypeName)
              api.responseTypeName) acc ↔
        n ∈ acc ∨ (BUILTIN_TYPES.contains n = false ∧
          ∃ api ∈ apis, n ∈ referencedBaseNames api)) := by
  intro apis
  induction apis with
  | nil => intro acc; simp
  | cons api apis ih =>
    intro acc
    rw [List.foldl_cons, ih, collectTypeNames_step_mem]
    constructor
    · rintro ((h | ⟨hb, hm⟩) | ⟨hb, a, ha, hm⟩)
      · exact Or.inl h
      · exact Or.inr ⟨hb, api, by simp, hm⟩
      · exact Or.inr ⟨hb, a, by simp [ha], hm⟩
    · rintro (h | ⟨hb, a, ha, hm⟩)
      · exact Or.inl (Or.inl h)
      · rcases List.mem_cons.mp ha with rfl | ha'
        · exact Or.inl (Or.inr ⟨hb, hm⟩)
        · exact Or.inr ⟨hb, a, ha', hm⟩

theorem collectTypeNames_nodup (apis : List ParsedAPI) :
    (collectTypeNames apis).Nodup := by
  suffices h : ∀ (apis : List ParsedAPI) (acc : List Str), acc.Nodup →
      (apis.foldl
        (fun names api =>
          addTypeName (addTypeName (addTypeName names api.paramsTypeName) api.bodyTypeName)
            api.responseTypeName) acc).Nodup by
    exact h apis [] (by simp)
  intro apis
  induction apis with
  | nil => intro acc h; simpa using h
  | cons api apis ih =>
    intro acc h
    rw [List.foldl_cons]
    exact ih _ (addTypeName_nodup _ _ (addTypeName_nodup _ _ (addTypeName_nodup _ _ h)))

end ImportLemmas

/-- C9: the function file's type-only import (emitted by `generateImports`
right after the request-client import) lists exactly the distinct base type
names referenced by some operation's params, body or response type name,
with built-ins excluded, each name once, sorted by name; no type import line
is emitted when no such name exists. -/
theorem generateImports_type_import (apis : List ParsedAPI) (typesImportPath : Str)
    (config : Config) :
    (jsSort strLe (collectTypeNames apis)).Nodup ∧
    (jsSort strLe (collectTypeNames apis)).Pairwise (fun a b => strLe a b = true) ∧
    (∀ n : Str, n ∈ jsSort strLe (collectTypeNames apis) ↔
      (BUILTIN_TYPES.contains n = false ∧ ∃ api ∈ apis, n ∈ referencedBaseNames api)) ∧
    generateImports apis typesImportPath config =
      (if (collectTypeNames apis).length > 0 then
        ("import \x7b ".toList ++ config.requestClient ++ " \x7d from '".toList ++
            config.requestImport ++ "'".toList) ++ "\n".toList ++
          ("import type \x7b ".toList ++
            List.intercalate ", ".toList (jsSort strLe (collectTypeNames apis)) ++
            " \x7d from '".toList ++ typesImportPath ++ "'".toList)
      else
        "import \x7b ".toList ++ config.requestClient ++ " \x7d from '".toList ++
          config.requestImport ++ "'".toList) := by
  refine ⟨jsSort_nodup _ _ (collectTypeNames_nodup apis),
    jsSort_pairwise strLe strLe_total strLe_trans _, ?_, rfl⟩
  intro n
  rw [(jsSort_perm strLe (collectTypeNames apis)).mem_iff]
  have := collectTypeNames_aux_mem n apis []
  rw [collectTypeNames]
  rw [this]
  simp

/-- Removing a pattern that sits at the front removes exactly that prefix. -/
theorem replaceFirst_prefix (pat x : Str) : replaceFirst pat (pat ++ x) = x := by
  rw [replaceFirst]
  have h : indexOfSub pat (pat ++ x) = some 0 := by
    apply indexOfSub_eq_some pat 0
    · intro i hi; exact absurd hi (Nat.not_lt_zero i)
    · simp only [List.drop_zero]
      exact List.isPrefixOf_iff_prefix.mpr (List.prefix_append pat x)
  rw [h]
  simp

/-- Property lookup on the claim's envelope shape finds the `data` field. -/
theorem lookupProp_envelope (c m d : Schema) :
    lookupProp [("code".toList, c), ("message".toList, m), ("data".toList, d)]
      "data".toList = some d := by
  rw [lookupProp]
  rw [List.find?_cons_of_neg _ (by simp only [decide_eq_true_eq]; decide),
    List.find?_cons_of_neg _ (by simp only [decide_eq_true_eq]; decide),
    List.find?_cons_of_pos _ (by simp)]
  rfl

theorem parseOperation_unwrap
    (path method : Str) (op : Operation) (config : Config)
    (usedRefs : List Str) (definitions : List (Str × Schema))
    (tagMapping : List (Str × Str))
    (envName rdesc : Str)
    (envTy envDesc : Option Str) (envItems : Option Schema)
    (envReq : Option (List Str)) (envAP : Option (Bool ⊕ Schema))
    (c m dataS : Schema)
    (h200 : op.responses.find? (fun p => p.1 = "200".toList)
      = some ("200".toList,
          ⟨rdesc, some (refSchema ("#/definitions/".toList ++ envName))⟩))
    (henv : lookupDef definitions envName
      = some (Schema.mk none envTy envDesc
          (some [("code".toList, c), ("message".toList, m), ("data".toList, dataS)])
          envItems envReq none none envAP)) :
    ((config.unwrapResponseField = some "data".toList) →
      ∀ userRef : Str, dataS = refSchema userRef →
        (parseOperation path method op config usedRefs definitions tagMapping).1.responseTypeName
          = some (cleanTypeName (replaceFirst "#/definitions/".toList userRef)
              config.typeNameSuffixFilter)) ∧
    ((config.unwrapResponseField = none) →
      (parseOperation path method op config usedRefs definitions tagMapping).1.responseTypeName
        = some (cleanTypeName envName config.typeNameSuffixFilter)) ∧
    ((config.unwrapResponseField = some "data".toList) →
      ∀ itemRef : Str,
        dataS = Schema.mk none (some "array".toList) none none (some (refSchema itemRef))
          none none none none →
        (parseOperation path method op config usedRefs definitions tagMapping).1.responseTypeName
          = some (cleanTypeName (replaceFirst "#/definitions/".toList itemRef)
              config.typeNameSuffixFilter ++ "[]".toList)) := by
  have hresp :
      ∀ cfg2 : Config,
        (parseOperation path method op cfg2 usedRefs definitions tagMapping).1.responseTypeName
          = (resolveResponse (refSchema ("#/definitions/".toList ++ envName)) cfg2 definitions
              (paramsFold (op.parameters.getD []) cfg2 { usedRefs := usedRefs }).usedRefs).1 := by
    intro cfg2
    rw [parseOperation]
    simp only [h200, Option.map_some]
    rfl
  have hstrip : replaceFirst "#/definitions/".toList ("#/definitions/".toList ++ envName)
      = envName := replaceFirst_prefix _ _
  refine ⟨?_, ?_, ?_⟩
  · intro hU userRef hd
    subst hd
    rw [hresp config, resolveResponse]
    simp only [refSchema, Schema.allOf, Schema.ref, hU]
    have ht : truthyStr (some "data".toList) = some "data".toList := by decide
    rw [ht]
    unfold extractUnwrappedType
    simp only [hstrip, henv, Schema.properties, lookupProp_envelope, Schema.ref, refSchema]
  · intro hU
    rw [hresp config, resolveResponse]
    simp only [refSchema, Schema.allOf, Schema.ref, hU]
    have ht : truthyStr (none : Option Str) = none := rfl
    rw [ht, hstrip]
  · intro hU itemRef hd
    subst hd
    rw [hresp config, resolveResponse]
    simp only [refSchema, Schema.allOf, Schema.ref, hU]
    have ht : truthyStr (some "data".toList) = some "data".toList := by decide
    rw [ht]
    unfold extractUnwrappedType
    simp only [hstrip, henv, Schema.properties, lookupProp_envelope, Schema.ref, refSchema,
      Schema.type, Schema.items, Option.bind_some]
    simp

/-- The definitions table of the C5 witness: a `User` and an envelope
`ApiResponse \x7b code, message, data: $ref User \x7d`. -/
def unwrapDefs : List (Str × Schema) :=
  [("User".toList, objSchema [("id".toList, typeSchema "integer".toList)]),
   ("ApiResponse".toList,
     Schema.mk none (some "object".toList) none
       (some [("code".toList, typeSchema "integer".toList),
              ("message".toList, typeSchema "string".toList),
              ("data".toList, refSchema "#/definitions/User".toList)])
       none none none none none)]

/-- An operation whose 200 response references the envelope. -/
def unwrapOp : Operation :=
  { responses := [("200".toList,
      ⟨"ok".toList, some (refSchema "#/definitions/ApiResponse".toList)⟩)] }

/-- A configuration that unwraps the `data` field. -/
def cfgUnwrap : Config :=
  ⟨"requestClient".toList, "@/utils/request".toList, [], [], [], some "data".toList, [], []⟩

/-- Witness for C5: with unwrap field `data`, the operation's response type is
the cleaned name of the referenced `User`. -/
theorem parseOperation_unwrap_witness :
    (parseOperation "/user".toList "get".toList unwrapOp cfgUnwrap [] unwrapDefs []).1.responseTypeName
      = some (cleanTypeName (replaceFirst "#/definitions/".toList "#/definitions/User".toList)
          cfgUnwrap.typeNameSuffixFilter) :=
  (parseOperation_unwrap "/user".toList "get".toList unwrapOp cfgUnwrap [] unwrapDefs []
      "ApiResponse".toList "ok".toList (some "object".toList) none none none none
      (typeSchema "integer".toList) (typeSchema "string".toList)
      (refSchema "#/definitions/User".toList)
      rfl rfl).1 rfl "#/definitions/User".toList rfl

/-- Witness for C10: only the first matching suffix is stripped, even when
the result still ends in a configured suffix. -/
theorem removeTypeSuffix_at_most_one_witness :
    removeTypeSuffix "FooResponseResponse".toList
        (["Request".toList] ++ "Response".toList :: ["Foo".toList])
      = ("FooResponseResponse".toList).take
          (("FooResponseResponse".toList).length - ("Response".toList).length) :=
  removeTypeSuffix_at_most_one.2.1 "FooResponseResponse".toList
    ["Request".toList] "Response".toList ["Foo".toList]
    (by decide) (by decide) (by decide)

example : removeTypeSuffix "FooResponseResponse".toList
    ["Request".toList, "Response".toList, "Foo".toList] = "FooResponse".toList := by decide


/-- A path segment: a literal directory name, a `\x7bparam\x7d` token, or an
Express-style `:param` token. -/
inductive Seg where
  | lit (s : Str)
  | param (p : Str)
  | colon (p : Str)

/-- The raw text of a segment. -/
def segText : Seg → Str
  | .lit s => s
  | .param p => '{' :: (p ++ ['}'])
  | .colon p => ':' :: p

/-- A path built from segments, each preceded by '/'. -/
def pathOfSegs (segs : List Seg) : Str :=
  (segs.map (fun s => '/' :: segText s)).flatten

/-- The contribution of one segment to the derived call name: the
Pascal-cased literal, or `By<PascalParam>` for either parameter form. -/
def segName : Seg → Str
  | .lit s => toPascalCase s
  | .param p => 'B' :: 'y' :: toPascalCase p
  | .colon p => 'B' :: 'y' :: toPascalCase p

/-- Well-formedness of a segment: literals avoid the brace/colon/slash
metacharacters; a `\x7bparam\x7d` parameter is non-empty and avoids '\x7d'
and '/'; a `:param` parameter is a non-empty `[a-zA-Z_][a-zA-Z0-9_]*`
identifier, so the colon regex consumes exactly it; and either parameter
form's Pascal-cased text stays free of metacharacters and of '-'/'_'. -/
def segWF : Seg → Bool
  | .lit s => s.all (fun c => c ≠ '{' && c ≠ ':' && c ≠ '/')
  | .param p =>
    !p.isEmpty && p.all (fun c => c ≠ '}' && c ≠ '/') &&
      (toPascalCase p).all (fun c => c ≠ ':' && c ≠ '{' && c ≠ '/' && c ≠ '-' && c ≠ '_')
  | .colon p =>
    (match p with
     | [] => false
     | d :: p' => isIdentStart d && p'.all isIdentChar) &&
      (toPascalCase p).all (fun c => c ≠ ':' && c ≠ '{' && c ≠ '/' && c ≠ '-' && c ≠ '_')

/-- The text of a segment after the brace-replacement pass: literals and
`:param` tokens pass through, `\x7bparam\x7d` becomes the `/By` form. -/
def postBracePiece : Seg → Str
  | .lit t => '/' :: t
  | .param p => '/' :: '/' :: 'B' :: 'y' :: toPascalCase p
  | .colon p => '/' :: ':' :: p

section FunctionNameLemmas

theorem camelReplace_id (l : Str) (h : ∀ c ∈ l, ¬(c = '-' ∨ c = '_')) :
    camelReplace l = l := by
  induction l with
  | nil => rfl
  | cons c t ih =>
    cases t with
    | nil => rfl
    | cons d t' =>
      rw [camelReplace]
      have hc := h c (by simp)
      rw [if_neg (by simpa using hc)]
      rw [ih (fun x hx => h x (by simp [List.mem_cons] at hx ⊢; tauto))]

theorem pascal_by (X : Str) (hX : ∀ c ∈ X, ¬(c = '-' ∨ c = '_')) :
    toPascalCase ('B' :: 'y' :: X) = 'B' :: 'y' :: X := by
  have hall : ∀ c ∈ 'B' :: 'y' :: X, ¬(c = '-' ∨ c = '_') := by
    intro c hc
    rcases List.mem_cons.mp hc with rfl | hc
    · decide
    · rcases List.mem_cons.mp hc with rfl | hc
      · decide
      · exact hX c hc
  rw [toPascalCase, toCamelCase, camelReplace_id _ hall]
  rfl

theorem braceScan_skip (rest : Str) :
    ∀ p : Str, braceScan (p ++ rest) p.length = braceScan rest 0 := by
  intro p
  induction p with
  | nil => rfl
  | cons c p' ih =>
    rw [List.cons_append, List.length_cons, braceScan]
    exact ih

theorem braceScan_pass (b : Str) :
    ∀ a : Str, (∀ c ∈ a, c ≠ '{') → braceScan (a ++ b) 0 = a ++ braceScan b 0 := by
  intro a
  induction a with
  | nil => intro _; rfl
  | cons c a' ih =>
    intro h
    rw [List.cons_append, braceScan, if_neg (by simpa using h c (by simp))]
    rw [ih (fun x hx => h x (by simp [hx]))]
    rfl

theorem takeWhile_middle (f : Char → Bool) (x : Char) (rest : Str) (hx : f x = false) :
    ∀ p : Str, (∀ c ∈ p, f c = true) →
      (p ++ x :: rest).takeWhile f = p ∧ (p ++ x :: rest).dropWhile f = x :: rest := by
  intro p
  induction p with
  | nil =>
    intro _
    constructor
    · rw [List.nil_append, List.takeWhile_cons, hx]
      simp
    · rw [List.nil_append, List.dropWhile_cons, hx]
      simp
  | cons c p' ih =>
    intro h
    have hc := h c (by simp)
    have := ih (fun y hy => h y (by simp [hy]))
    constructor
    · rw [List.cons_append, List.takeWhile_cons, hc]
      simp [this.1]
    · rw [List.cons_append, List.dropWhile_cons, hc]
      simp [this.2]

theorem braceScan_param (p rest : Str) (hne : p ≠ []) (hnb : ∀ c ∈ p, c ≠ '}') :
    braceScan ('{' :: (p ++ '}' :: rest)) 0
      = '/' :: 'B' :: 'y' :: (toPascalCase p ++ braceScan rest 0) := by
  have htw := takeWhile_middle (fun d => decide (d ≠ '}')) '}' rest (by simp) p
    (fun c hc => by simpa using hnb c hc)
  rw [braceScan]
  rw [if_pos rfl]
  simp only [htw.1, htw.2]
  rw [if_neg (by simpa [List.isEmpty_iff] using hne)]
  have hskip : braceScan (p ++ '}' :: rest) (p.length + 1) = braceScan rest 0 := by
    have h2 : p ++ '}' :: rest = (p ++ ['}']) ++ rest := by simp
    have h3 : p.length + 1 = (p ++ ['}']).length := by simp
    rw [h2, h3, braceScan_skip]
  rw [hskip]

theorem colonScan_pass (l : Str) (h : ∀ c ∈ l, c ≠ ':') : colonScan l 0 = l := by
  induction l with
  | nil => rfl
  | cons c t ih =>
    have hc : ¬(c = ':') := h c (by simp)
    rw [colonScan.eq_def]
    simp only [if_neg hc]
    rw [ih (fun x hx => h x (by simp [hx]))]

theorem colonScan_skip (rest : Str) :
    ∀ p : Str, colonScan (p ++ rest) p.length = colonScan rest 0 := by
  intro p
  induction p with
  | nil => rfl
  | cons c p' ih =>
    rw [List.cons_append, List.length_cons, colonScan]
    exact ih

theorem colonScan_pass_append (b : Str) :
    ∀ a : Str, (∀ c ∈ a, c ≠ ':') → colonScan (a ++ b) 0 = a ++ colonScan b 0 := by
  intro a
  induction a with
  | nil => intro _; rfl
  | cons c a' ih =>
    intro h
    have hc : ¬(c = ':') := h c (by simp)
    rw [List.cons_append, colonScan.eq_def]
    simp only [if_neg hc]
    rw [ih (fun x hx => h x (by simp [hx]))]
    rfl

theorem takeWhile_append_head (f : Char → Bool) (rest : Str)
    (hr : ∀ x ∈ rest.take 1, f x = false) :
    ∀ p : Str, (∀ c ∈ p, f c = true) →
      (p ++ rest).takeWhile f = p := by
  intro p
  induction p with
  | nil =>
    intro _
    cases rest with
    | nil => rfl
    | cons x r =>
      have hx := hr x (by simp)
      rw [List.nil_append, List.takeWhile_cons, hx]
      simp
  | cons c p' ih =>
    intro h
    have hc := h c (by simp)
    rw [List.cons_append, List.takeWhile_cons, hc]
    simp [ih (fun y hy => h y (by simp [hy]))]

theorem colonScan_param (d : Char) (p' rest : Str) (hd : isIdentStart d = true)
    (hp' : ∀ c ∈ p', isIdentChar c = true)
    (hrest : ∀ x ∈ rest.take 1, isIdentChar x = false) :
    colonScan (':' :: d :: (p' ++ rest)) 0
      = '/' :: 'B' :: 'y' :: (toPascalCase (d :: p') ++ colonScan rest 0) := by
  have htw := takeWhile_append_head isIdentChar rest hrest p' hp'
  rw [colonScan.eq_def]
  simp only [if_pos rfl, hd, if_true, htw]
  have hskip : colonScan (d :: (p' ++ rest)) (d :: p').length = colonScan rest 0 := by
    have h2 : d :: (p' ++ rest) = (d :: p') ++ rest := by simp
    rw [h2, colonScan_skip]
  rw [hskip]

theorem postBrace_flatten_head (segs : List Seg) :
    ∀ x ∈ ((segs.map postBracePiece).flatten).take 1, isIdentChar x = false := by
  cases segs with
  | nil => intro x hx; simp at hx
  | cons s segs =>
    intro x hx
    have hflat : ((s :: segs).map postBracePiece).flatten
        = postBracePiece s ++ (segs.map postBracePiece).flatten := by simp
    rw [hflat] at hx
    rcases s with t | p | p <;>
      (rw [postBracePiece, List.cons_append, List.take_succ_cons, List.take_zero] at hx;
       rw [List.mem_singleton] at hx;
       subst hx;
       decide)

theorem splitChar_ne_nil (c : Char) (l : Str) : splitChar c l ≠ [] := by
  cases l with
  | nil => simp [splitChar]
  | cons x t =>
    rw [splitChar]
    by_cases h : x = c
    · simp [h]
    · rw [if_neg h]
      rcases hs : splitChar c t with _ | ⟨h1, r⟩ <;> simp

theorem splitChar_append (sep : Char) (y : Str) :
    ∀ a : Str, (∀ c ∈ a, c ≠ sep) →
      splitChar sep (a ++ y)
        = (a ++ (splitChar sep y).headD []) :: (splitChar sep y).tail := by
  intro a
  induction a with
  | nil =>
    intro _
    rcases hs : splitChar sep y with _ | ⟨h1, r⟩
    · exact absurd hs (splitChar_ne_nil sep y)
    · simp [hs]
  | cons x a' ih =>
    intro h
    rw [List.cons_append, splitChar, if_neg (h x (by simp))]
    rw [ih (fun z hz => h z (by simp [hz]))]
    rfl

theorem identStart_ne (c : Char) (h : isIdentStart c = true) : c ≠ '{' ∧ c ≠ ':' := by
  constructor <;> (rintro rfl; exact absurd h (by decide))

theorem identChar_ne (c : Char) (h : isIdentChar c = true) : c ≠ '{' ∧ c ≠ ':' := by
  constructor <;> (rintro rfl; exact absurd h (by decide))

end FunctionNameLemmas

/-- The '/'-separated chunks the path decomposes into after both
replacement passes: a literal keeps its text, a parameter of either form
contributes an empty chunk (from the doubled slash) and a
`By<PascalParam>` chunk. -/
def segChunks : List Seg → List Str
  | [] => []
  | .lit t :: segs => t :: segChunks segs
  | .param p :: segs => [] :: ('B' :: 'y' :: toPascalCase p) :: segChunks segs
  | .colon p :: segs => [] :: ('B' :: 'y' :: toPascalCase p) :: segChunks segs

theorem braceScan_pathOfSegs :
    ∀ segs : List Seg, (∀ s ∈ segs, segWF s = true) →
      braceScan (pathOfSegs segs) 0 = (segs.map postBracePiece).flatten := by
  intro segs
  induction segs with
  | nil => intro _; rfl
  | cons s segs ih =>
    intro h
    have hrest := fun s (hs : s ∈ segs) => h s (List.mem_cons_of_mem _ hs)
    rcases s with t | p | p
    · have hwf := h (.lit t) (by simp)
      rw [segWF, List.all_eq_true] at hwf
      have hpath : pathOfSegs (.lit t :: segs) = ('/' :: t) ++ pathOfSegs segs := by
        simp [pathOfSegs, segText]
      have hnb : ∀ c ∈ '/' :: t, c ≠ '{' := by
        intro c hc
        rcases List.mem_cons.mp hc with rfl | hc
        · decide
        · have := hwf c hc
          simp at this
          tauto
      rw [hpath, braceScan_pass _ _ hnb, ih hrest]
      simp [postBracePiece]
    · have hwf := h (.param p) (by simp)
      rw [segWF] at hwf
      simp only [Bool.and_eq_true, List.all_eq_true] at hwf
      rcases hwf with ⟨⟨hne, hchars⟩, _⟩
      have hpath : pathOfSegs (.param p :: segs)
          = '/' :: '{' :: (p ++ '}' :: pathOfSegs segs) := by
        simp [pathOfSegs, segText]
      rw [hpath]
      have h1 : braceScan ('/' :: '{' :: (p ++ '}' :: pathOfSegs segs)) 0
          = '/' :: braceScan ('{' :: (p ++ '}' :: pathOfSegs segs)) 0 := by
        have := braceScan_pass ('{' :: (p ++ '}' :: pathOfSegs segs)) ['/'] (by decide)
        simpa using this
      rw [h1]
      rw [braceScan_param p (pathOfSegs segs) (by simpa [List.isEmpty_iff] using hne)
        (fun c hc => by have := hchars c hc; simp at this; tauto)]
      rw [ih hrest]
      simp [postBracePiece]
    · cases p with
      | nil =>
        have hwf := h (.colon []) (by simp)
        exact absurd hwf (by decide)
      | cons d p' =>
        have hwf := h (.colon (d :: p')) (by simp)
        have hwf2 : (isIdentStart d && p'.all isIdentChar
            && (toPascalCase (d :: p')).all
              (fun c => c ≠ ':' && c ≠ '\x7b' && c ≠ '/' && c ≠ '-' && c ≠ '_')) = true := hwf
        simp only [Bool.and_eq_true, List.all_eq_true] at hwf2
        rcases hwf2 with ⟨⟨hd, hp'⟩, _⟩
        have hpath : pathOfSegs (.colon (d :: p') :: segs)
            = ('/' :: ':' :: d :: p') ++ pathOfSegs segs := by
          simp [pathOfSegs, segText]
        have hnb : ∀ c ∈ '/' :: ':' :: d :: p', c ≠ '{' := by
          intro c hc
          rcases List.mem_cons.mp hc with rfl | hc
          · decide
          · rcases List.mem_cons.mp hc with rfl | hc
            · decide
            · rcases List.mem_cons.mp hc with rfl | hc
              · exact (identStart_ne c hd).1
              · exact (identChar_ne c (hp' c hc)).1
        rw [hpath, braceScan_pass _ _ hnb, ih hrest]
        simp [postBracePiece]

theorem colonScan_postBrace :
    ∀ segs : List Seg, (∀ s ∈ segs, segWF s = true) →
      colonScan ((segs.map postBracePiece).flatten) 0
        = ((segChunks segs).map (fun ch => '/' :: ch)).flatten := by
  intro segs
  induction segs with
  | nil => intro _; rfl
  | cons s segs ih =>
    intro h
    have hrest := fun s (hs : s ∈ segs) => h s (List.mem_cons_of_mem _ hs)
    have hflat : ((s :: segs).map postBracePiece).flatten
        = postBracePiece s ++ (segs.map postBracePiece).flatten := by simp
    rcases s with t | p | p
    · have hwf := h (.lit t) (by simp)
      rw [segWF, List.all_eq_true] at hwf
      have hnc : ∀ c ∈ postBracePiece (.lit t), c ≠ ':' := by
        intro c hc
        rw [postBracePiece] at hc
        rcases List.mem_cons.mp hc with rfl | hc
        · decide
        · have := hwf c hc
          simp at this
          tauto
      rw [hflat, colonScan_pass_append _ _ hnc, ih hrest]
      simp [postBracePiece, segChunks]
    · have hwf := h (.param p) (by simp)
      rw [segWF] at hwf
      simp only [Bool.and_eq_true, List.all_eq_true] at hwf
      rcases hwf with ⟨_, hpascal⟩
      have hnc : ∀ c ∈ postBracePiece (.param p), c ≠ ':' := by
        intro c hc
        simp only [postBracePiece, List.mem_cons] at hc
        rcases hc with rfl | rfl | rfl | rfl | hc
        · decide
        · decide
        · decide
        · decide
        · have := hpascal c hc
          simp at this
          tauto
      rw [hflat, colonScan_pass_append _ _ hnc, ih hrest]
      simp [postBracePiece, segChunks]
    · cases p with
      | nil =>
        have hwf := h (.colon []) (by simp)
        exact absurd hwf (by decide)
      | cons d p' =>
        have hwf := h (.colon (d :: p')) (by simp)
        have hwf2 : (isIdentStart d && p'.all isIdentChar
            && (toPascalCase (d :: p')).all
              (fun c => c ≠ ':' && c ≠ '\x7b' && c ≠ '/' && c ≠ '-' && c ≠ '_')) = true := hwf
        simp only [Bool.and_eq_true, List.all_eq_true] at hwf2
        rcases hwf2 with ⟨⟨hd, hp'⟩, _⟩
        have hpiece : postBracePiece (.colon (d :: p')) = '/' :: ':' :: d :: p' := rfl
        rw [hflat, hpiece]
        have h1 : colonScan (('/' :: ':' :: d :: p')
              ++ (segs.map postBracePiece).flatten) 0
            = '/' :: colonScan ((':' :: d :: p')
              ++ (segs.map postBracePiece).flatten) 0 := by
          have := colonScan_pass_append ((':' :: d :: p')
            ++ (segs.map postBracePiece).flatten) ['/'] (by decide)
          simpa using this
        rw [h1]
        have h2 : (':' :: d :: p') ++ (segs.map postBracePiece).flatten
            = ':' :: d :: (p' ++ (segs.map postBracePiece).flatten) := by simp
        rw [h2, colonScan_param d p' _ hd hp' (postBrace_flatten_head segs), ih hrest]
        simp [segChunks]

theorem segWF_colon_pascal (p : Str) (h : segWF (.colon p) = true) :
    ∀ c ∈ toPascalCase p,
      ¬(c = ':') ∧ ¬(c = '\x7b') ∧ ¬(c = '/') ∧ ¬(c = '-') ∧ ¬(c = '_') := by
  cases p with
  | nil => exact absurd h (by decide)
  | cons d p' =>
    have h2 : (isIdentStart d && p'.all isIdentChar
        && (toPascalCase (d :: p')).all
          (fun c => c ≠ ':' && c ≠ '\x7b' && c ≠ '/' && c ≠ '-' && c ≠ '_')) = true := h
    simp only [Bool.and_eq_true, List.all_eq_true] at h2
    intro c hc
    have := h2.2 c hc
    simp at this
    tauto

theorem segChunks_chars :
    ∀ segs : List Seg, (∀ s ∈ segs, segWF s = true) →
      ∀ ch ∈ segChunks segs, ∀ c ∈ ch, ¬(c = ':') ∧ ¬(c = '/') := by
  intro segs
  induction segs with
  | nil => intro _ ch hch; simp [segChunks] at hch
  | cons s segs ih =>
    intro h ch hch
    have hrest := fun s (hs : s ∈ segs) => h s (List.mem_cons_of_mem _ hs)
    rcases s with t | p | p
    · have hwf := h (.lit t) (by simp)
      rw [segWF, List.all_eq_true] at hwf
      rw [segChunks] at hch
      rcases List.mem_cons.mp hch with rfl | hch
      · intro c hc
        have := hwf c hc
        simp at this
        tauto
      · exact ih hrest ch hch
    · have hwf := h (.param p) (by simp)
      rw [segWF] at hwf
      simp only [Bool.and_eq_true, List.all_eq_true] at hwf
      rcases hwf with ⟨_, hpascal⟩
      rw [segChunks] at hch
      rcases List.mem_cons.mp hch with rfl | hch
      · intro c hc; simp at hc
      · rcases List.mem_cons.mp hch with rfl | hch
        · intro c hc
          rcases List.mem_cons.mp hc with rfl | hc
          · decide
          · rcases List.mem_cons.mp hc with rfl | hc
            · decide
            · have := hpascal c hc
              simp at this
              tauto
        · exact ih hrest ch hch
    · have hpascal := segWF_colon_pascal p (h (.colon p) (by simp))
      rw [segChunks] at hch
      rcases List.mem_cons.mp hch with rfl | hch
      · intro c hc; simp at hc
      · rcases List.mem_cons.mp hch with rfl | hch
        · intro c hc
          rcases List.mem_cons.mp hc with rfl | hc
          · decide
          · rcases List.mem_cons.mp hc with rfl | hc
            · decide
            · have := hpascal c hc
              tauto
        · exact ih hrest ch hch

theorem split_flatten :
    ∀ chunks : List Str, (∀ ch ∈ chunks, ∀ c ∈ ch, c ≠ '/') →
      splitChar '/' ((chunks.map (fun ch => '/' :: ch)).flatten) = [] :: chunks := by
  intro chunks
  induction chunks with
  | nil => intro _; rfl
  | cons ch chunks ih =>
    intro h
    have hrest := fun x (hx : x ∈ chunks) => h x (List.mem_cons_of_mem _ hx)
    have hflat : ((ch :: chunks).map (fun ch => '/' :: ch)).flatten
        = '/' :: (ch ++ (chunks.map (fun ch => '/' :: ch)).flatten) := by simp
    rw [hflat, splitChar, if_pos rfl]
    rw [splitChar_append '/' _ ch (h ch (by simp))]
    rw [ih hrest]
    simp

theorem flatten_pascal_filter :
    ∀ chunks : List Str,
      (((chunks.filter (fun p => !p.isEmpty)).map toPascalCase)).flatten
        = (chunks.map toPascalCase).flatten := by
  intro chunks
  induction chunks with
  | nil => rfl
  | cons ch chunks ih =>
    by_cases hch : ch.isEmpty = true
    · have : ch = [] := by simpa [List.isEmpty_iff] using hch
      subst this
      simpa [List.filter_cons] using ih
    · simp only [List.filter_cons, hch]
      simp only [Bool.not_false, if_pos]
      simpa using ih

theorem chunks_pascal :
    ∀ segs : List Seg, (∀ s ∈ segs, segWF s = true) →
      ((segChunks segs).map toPascalCase).flatten = (segs.map segName).flatten := by
  intro segs
  induction segs with
  | nil => intro _; rfl
  | cons s segs ih =>
    intro h
    have hrest := fun s (hs : s ∈ segs) => h s (List.mem_cons_of_mem _ hs)
    rcases s with t | p | p
    · rw [segChunks]
      simp only [List.map_cons, List.flatten_cons, ih hrest]
      rfl
    · have hwf := h (.param p) (by simp)
      rw [segWF] at hwf
      simp only [Bool.and_eq_true, List.all_eq_true] at hwf
      rcases hwf with ⟨_, hpascal⟩
      rw [segChunks]
      simp only [List.map_cons, List.flatten_cons, ih hrest]
      have hby : toPascalCase ('B' :: 'y' :: toPascalCase p)
          = 'B' :: 'y' :: toPascalCase p := by
        apply pascal_by
        intro c hc
        have := hpascal c hc
        simp at this
        tauto
      rw [hby]
      have hnil : toPascalCase ([] : Str) = [] := rfl
      rw [hnil]
      simp [segName]
    · have hpascal := segWF_colon_pascal p (h (.colon p) (by simp))
      rw [segChunks]
      simp only [List.map_cons, List.flatten_cons, ih hrest]
      have hby : toPascalCase ('B' :: 'y' :: toPascalCase p)
          = 'B' :: 'y' :: toPascalCase p := by
        apply pascal_by
        intro c hc
        have := hpascal c hc
        tauto
      rw [hby]
      have hnil : toPascalCase ([] : Str) = [] := rfl
      rw [hnil]
      simp [segName]

/-- C8: for a path assembled from literal, `\x7bparam\x7d` and `:param`
segments, `generateFunctionName` replaces each parameter segment of
either form by a `By<PascalParam>` token, Pascal-cases and concatenates
the segments, and prefixes the lowercased verb; in particular GET on
`/orders/\x7bid\x7d/items/\x7bitemId\x7d` yields exactly
`getOrdersByIdItemsByItemId`, and the Express form
`/orders/:id/items/:itemId` yields the same name. -/
theorem generateFunctionName_segments :
    (∀ (method : Str) (segs : List Seg), (∀ s ∈ segs, segWF s = true) →
      generateFunctionName method (pathOfSegs segs)
        = method.map Char.toLower ++ (segs.map segName).flatten) ∧
    generateFunctionName "GET".toList "/orders/\x7bid\x7d/items/\x7bitemId\x7d".toList
      = "getOrdersByIdItemsByItemId".toList ∧
    generateFunctionName "GET".toList "/orders/:id/items/:itemId".toList
      = "getOrdersByIdItemsByItemId".toList := by
  refine ⟨?_, by decide, by decide⟩
  intro method segs h
  have hchars := segChunks_chars segs h
  have hslash : ∀ ch ∈ segChunks segs, ∀ c ∈ ch, c ≠ '/' :=
    fun ch hch c hc => (hchars ch hch c hc).2
  rw [generateFunctionName]
  simp only [replaceBraceParams, replaceColonParams]
  rw [braceScan_pathOfSegs segs h, colonScan_postBrace segs h, split_flatten _ hslash]
  have hfilter : (([] : Str) :: segChunks segs).filter (fun p => !p.isEmpty)
      = (segChunks segs).filter (fun p => !p.isEmpty) := by
    simp [List.filter_cons]
  rw [hfilter]
  rw [flatten_pascal_filter, chunks_pascal segs h]

/-- Witness for C8's segment decomposition at a path mixing both
parameter forms. -/
theorem generateFunctionName_segments_witness :
    generateFunctionName "DELETE".toList
        (pathOfSegs [.lit "orders".toList, .colon "id".toList,
          .lit "items".toList, .param "itemId".toList])
      = ("DELETE".toList).map Char.toLower ++
          (([Seg.lit "orders".toList, .colon "id".toList,
            .lit "items".toList, .param "itemId".toList]).map segName).flatten :=
  generateFunctionName_segments.1 "DELETE".toList
    [.lit "orders".toList, .colon "id".toList, .lit "items".toList, .param "itemId".toList]
    (by decide)


section DrainLemmas

theorem popLast?_spec :
    ∀ (l rest : List Str) (x : Str), popLast? l = some (x, rest) → l = rest ++ [x] := by
  intro l
  induction l with
  | nil => intro rest x h; simp [popLast?] at h
  | cons a t ih =>
    intro rest x h
    cases t with
    | nil =>
      rw [popLast?] at h
      rw [Option.some_inj, Prod.mk.injEq] at h
      rw [← h.1, ← h.2]
      rfl
    | cons b t' =>
      rw [popLast?] at h
      cases hp : popLast? (b :: t') with
      | none => rw [hp] at h; simp at h
      | some pr =>
        rw [hp] at h
        rcases pr with ⟨x', rest'⟩
        simp only [Option.some_inj] at h
        have h1 : x' = x := by
          have := congrArg Prod.fst h
          simpa using this
        have h2 : a :: rest' = rest := by
          have := congrArg Prod.snd h
          simpa using this
        subst h1
        have := ih rest' x' hp
        rw [← h2, this]
        rfl

theorem popLast?_none : ∀ l : List Str, popLast? l = none → l = [] := by
  intro l h
  cases l with
  | nil => rfl
  | cons a t =>
    cases t with
    | nil => simp [popLast?] at h
    | cons b t' =>
      rw [popLast?] at h
      cases hp : popLast? (b :: t') with
      | none => exact absurd (popLast?_none (b :: t') hp) (by simp)
      | some pr => rw [hp] at h; simp at h

theorem lookupDef_mem (defs : List (Str × Schema)) (n : Str) (s : Schema)
    (h : lookupDef defs n = some s) : ∃ p ∈ defs, p.2 = s := by
  rw [lookupDef] at h
  cases hf : defs.find? (fun p => p.1 = n) with
  | none => rw [hf] at h; simp at h
  | some p =>
    rw [hf] at h
    refine ⟨p, List.mem_of_find?_eq_some hf, ?_⟩
    simpa using h

theorem drainRefs_isSome (defs : List (Str × Schema)) (U : List Str) (B : Nat)
    (hUc : ∀ p ∈ defs, ∀ r ∈ collectRefs p.2, r ∈ U)
    (hB : ∀ p ∈ defs, (collectRefs p.2).length ≤ B) :
    ∀ (fuel : Nat) (processed work : List Str),
      (∀ r ∈ work, r ∈ U) →
      (U.toFinset \ processed.toFinset).card * (B + 1) + work.length ≤ fuel →
      (drainRefs defs fuel processed work).isSome := by
  intro fuel
  induction fuel with
  | zero =>
    intro processed work hw hf
    have hwork : work = [] := by
      cases work with
      | nil => rfl
      | cons a t => simp [List.length_cons] at hf
    subst hwork
    simp [drainRefs]
  | succ fuel ih =>
    intro processed work hw hf
    rw [drainRefs]
    cases hpop : popLast? work with
    | none => simp
    | some pr =>
      rcases pr with ⟨ref, rest⟩
      have hwork : work = rest ++ [ref] := popLast?_spec work rest ref hpop
      subst hwork
      have hrefU : ref ∈ U := hw ref (by simp)
      have hrestU : ∀ r ∈ rest, r ∈ U := fun r hr => hw r (by simp [hr])
      have hlen : (rest ++ [ref]).length = rest.length + 1 := by simp
      simp only
      by_cases hproc : processed.contains ref = true
      · rw [if_pos hproc]
        apply ih processed rest hrestU
        omega
      · rw [if_neg hproc]
        have hmem : ref ∈ U.toFinset \ processed.toFinset := by
          rw [Finset.mem_sdiff, List.mem_toFinset, List.mem_toFinset]
          exact ⟨hrefU, fun hc => hproc (List.elem_eq_true_of_mem hc)⟩
        have hsd : U.toFinset \ (processed ++ [ref]).toFinset
            = (U.toFinset \ processed.toFinset).erase ref := by
          ext x
          rw [Finset.mem_erase, Finset.mem_sdiff, Finset.mem_sdiff,
            List.mem_toFinset, List.mem_toFinset, List.mem_toFinset, List.mem_append]
          simp only [List.mem_singleton]
          tauto
        have hcardpos : 0 < (U.toFinset \ processed.toFinset).card :=
          Finset.card_pos.mpr ⟨ref, hmem⟩
        have hcard : (U.toFinset \ (processed ++ [ref]).toFinset).card
            = (U.toFinset \ processed.toFinset).card - 1 := by
          rw [hsd, Finset.card_erase_of_mem hmem]
        have hkk : (U.toFinset \ processed.toFinset).card
            = (U.toFinset \ (processed ++ [ref]).toFinset).card + 1 := by omega
        rw [hkk] at hf
        have hmul : ((U.toFinset \ (processed ++ [ref]).toFinset).card + 1) * (B + 1)
            = (U.toFinset \ (processed ++ [ref]).toFinset).card * (B + 1) + (B + 1) := by
          ring
        rw [hmul] at hf
        cases hlook : lookupDef defs (replaceFirst "#/definitions/".toList ref) with
        | none =>
          apply ih (processed ++ [ref]) rest hrestU
          omega
        | some schema =>
          rcases lookupDef_mem defs _ schema hlook with ⟨p, hp, hps⟩
          have hcr : ∀ r ∈ collectRefs schema, r ∈ U := by
            intro r hr
            exact hUc p hp r (by rw [hps]; exact hr)
          have hcrB : (collectRefs schema).length ≤ B := by
            have := hB p hp
            rw [hps] at this
            exact this
          apply ih (processed ++ [ref]) (rest ++ collectRefs schema)
          · intro r hr
            rcases List.mem_append.mp hr with hr | hr
            · exact hrestU r hr
            · exact hcr r hr
          · have : (rest ++ collectRefs schema).length
                = rest.length + (collectRefs schema).length := by simp
            omega

end DrainLemmas

theorem drainRefs_spec (defs : List (Str × Schema)) :
    ∀ (fuel : Nat) (processed work res : List Str),
      drainRefs defs fuel processed work = some res →
      processed.Nodup →
      (∀ r ∈ processed, ∀ s,
        lookupDef defs (replaceFirst "#/definitions/".toList r) = some s →
        ∀ r' ∈ collectRefs s, r' ∈ processed ∨ r' ∈ work) →
      res.Nodup ∧ (∀ r ∈ processed, r ∈ res) ∧ (∀ r ∈ work, r ∈ res) ∧
        (∀ r ∈ res, ∀ s,
          lookupDef defs (replaceFirst "#/definitions/".toList r) = some s →
          ∀ r' ∈ collectRefs s, r' ∈ res) := by
  intro fuel
  induction fuel with
  | zero =>
    intro processed work res hdrain hnodup hH
    rw [drainRefs] at hdrain
    by_cases hw : work.isEmpty = true
    · rw [if_pos hw] at hdrain
      rw [Option.some_inj] at hdrain
      subst hdrain
      have hwork : work = [] := by simpa [List.isEmpty_iff] using hw
      subst hwork
      refine ⟨hnodup, fun r hr => hr, by simp, ?_⟩
      intro r hr s hs r' hr'
      rcases hH r hr s hs r' hr' with h | h
      · exact h
      · simp at h
    · rw [if_neg hw] at hdrain
      simp at hdrain
  | succ fuel ih =>
    intro processed work res hdrain hnodup hH
    rw [drainRefs] at hdrain
    cases hpop : popLast? work with
    | none =>
      rw [hpop] at hdrain
      simp only [Option.some_inj] at hdrain
      subst hdrain
      have hwork : work = [] := popLast?_none work hpop
      subst hwork
      refine ⟨hnodup, fun r hr => hr, by simp, ?_⟩
      intro r hr s hs r' hr'
      rcases hH r hr s hs r' hr' with h | h
      · exact h
      · simp at h
    | some pr =>
      rw [hpop] at hdrain
      rcases pr with ⟨ref, rest⟩
      have hwork : work = rest ++ [ref] := popLast?_spec work rest ref hpop
      subst hwork
      simp only at hdrain
      by_cases hproc : processed.contains ref = true
      · rw [if_pos hproc] at hdrain
        have hrefmem : ref ∈ processed := List.mem_of_elem_eq_true hproc
        have hH' : ∀ r ∈ processed, ∀ s,
            lookupDef defs (replaceFirst "#/definitions/".toList r) = some s →
            ∀ r' ∈ collectRefs s, r' ∈ processed ∨ r' ∈ rest := by
          intro r hr s hs r' hr'
          rcases hH r hr s hs r' hr' with h | h
          · exact Or.inl h
          · rcases List.mem_append.mp h with h | h
            · exact Or.inr h
            · rw [List.mem_singleton] at h
              subst h
              exact Or.inl hrefmem
        rcases ih processed rest res hdrain hnodup hH' with ⟨h1, h2, h3, h4⟩
        refine ⟨h1, h2, ?_, h4⟩
        intro r hr
        rcases List.mem_append.mp hr with h | h
        · exact h3 r h
        · rw [List.mem_singleton] at h
          subst h
          exact h2 r hrefmem
      · rw [if_neg hproc] at hdrain
        have hrefnot : ref ∉ processed := fun hc => hproc (List.elem_eq_true_of_mem hc)
        have hnodup' : (processed ++ [ref]).Nodup := by
          refine List.Nodup.append hnodup (List.nodup_singleton ref) ?_
          intro a ha hb
          rw [List.mem_singleton] at hb
          subst hb
          exact hrefnot ha
        cases hlook : lookupDef defs (replaceFirst "#/definitions/".toList ref) with
        | none =>
          rw [hlook] at hdrain
          have hH' : ∀ r ∈ processed ++ [ref], ∀ s,
              lookupDef defs (replaceFirst "#/definitions/".toList r) = some s →
              ∀ r' ∈ collectRefs s, r' ∈ processed ++ [ref] ∨ r' ∈ rest := by
            intro r hr s hs r' hr'
            rcases List.mem_append.mp hr with hr | hr
            · rcases hH r hr s hs r' hr' with h | h
              · exact Or.inl (by simp [h])
              · rcases List.mem_append.mp h with h | h
                · exact Or.inr h
                · rw [List.mem_singleton] at h
                  subst h
                  exact Or.inl (by simp)
            · rw [List.mem_singleton] at hr
              subst hr
              rw [hlook] at hs
              exact absurd hs (by simp)
          rcases ih (processed ++ [ref]) rest res hdrain hnodup' hH' with ⟨h1, h2, h3, h4⟩
          refine ⟨h1, fun r hr => h2 r (by simp [hr]), ?_, h4⟩
          intro r hr
          rcases List.mem_append.mp hr with h | h
          · exact h3 r h
          · rw [List.mem_singleton] at h
            subst h
            exact h2 r (by simp)
        | some schema =>
          rw [hlook] at hdrain
          have hH' : ∀ r ∈ processed ++ [ref], ∀ s,
              lookupDef defs (replaceFirst "#/definitions/".toList r) = some s →
              ∀ r' ∈ collectRefs s, r' ∈ processed ++ [ref] ∨
                r' ∈ rest ++ collectRefs schema := by
            intro r hr s hs r' hr'
            rcases List.mem_append.mp hr with hr | hr
            · rcases hH r hr s hs r' hr' with h | h
              · exact Or.inl (by simp [h])
              · rcases List.mem_append.mp h with h | h
                · exact Or.inr (by simp [h])
                · rw [List.mem_singleton] at h
                  subst h
                  exact Or.inl (by simp)
            · rw [List.mem_singleton] at hr
              subst hr
              rw [hlook] at hs
              rw [Option.some_inj] at hs
              subst hs
              exact Or.inr (by simp [hr'])
          rcases ih (processed ++ [ref]) (rest ++ collectRefs schema) res hdrain hnodup' hH'
            with ⟨h1, h2, h3, h4⟩
          refine ⟨h1, fun r hr => h2 r (by simp [hr]), ?_, h4⟩
          intro r hr
          rcases List.mem_append.mp hr with h | h
          · exact h3 r (by simp [h])
          · rw [List.mem_singleton] at h
            subst h
            exact h2 r (by simp)

/-- The 2-node mutually-referencing pair of the C4 scenario. -/
def schemaA : Schema := objSchema [("b".toList, refSchema "#/definitions/B".toList)]

def schemaB : Schema := objSchema [("a".toList, refSchema "#/definitions/A".toList)]

def defsAB : List (Str × Schema) := [("A".toList, schemaA), ("B".toList, schemaB)]

def cfgAB : Config :=
  ⟨"requestClient".toList, "@/utils/request".toList, [], [], [], none, [], []⟩

/-- C4: for every finite definitions table — reference cycles included — the
reference-closure drain of `parseSwagger2` finishes within a finite step
budget, processes no reference twice (the processed list is duplicate-free),
covers every initially used reference, and is closed under the references
collected from each processed definition; on the 2-node mutually-referencing
pair both nodes are resolved exactly once and each contributes exactly one
entry to its module's emitted type set. -/
theorem refClosure_drain_terminates :
    (∀ (definitions : List (Str × Schema)) (work : List Str),
      ∃ (fuel : Nat) (res : List Str),
        drainRefs definitions fuel [] work = some res ∧
        res.Nodup ∧
        (∀ r ∈ work, r ∈ res) ∧
        (∀ r ∈ res, ∀ s,
          lookupDef definitions (replaceFirst "#/definitions/".toList r) = some s →
          ∀ r' ∈ collectRefs s, r' ∈ res)) ∧
    (drainRefs defsAB 4 [] ["#/definitions/A".toList]
        = some ["#/definitions/A".toList, "#/definitions/B".toList] ∧
      (buildTypes defsAB ["#/definitions/A".toList, "#/definitions/B".toList] cfgAB).map
          (fun p => (p.1, p.2.map ParsedType.name))
        = [("common".toList, ["A".toList, "B".toList])]) := by
  constructor
  · intro definitions work
    have hUc : ∀ p ∈ definitions, ∀ r ∈ collectRefs p.2,
        r ∈ work ++ (definitions.map (fun p => collectRefs p.2)).flatten := by
      intro p hp r hr
      refine List.mem_append.mpr (Or.inr ?_)
      rw [List.mem_flatten]
      exact ⟨collectRefs p.2, List.mem_map.mpr ⟨p, hp, rfl⟩, hr⟩
    have hB : ∀ p ∈ definitions, (collectRefs p.2).length
        ≤ (definitions.map (fun p => (collectRefs p.2).length)).sum := by
      intro p hp
      exact List.le_sum_of_mem (List.mem_map.mpr ⟨p, hp, rfl⟩)
    have hw : ∀ r ∈ work, r ∈ work ++ (definitions.map (fun p => collectRefs p.2)).flatten :=
      fun r hr => List.mem_append.mpr (Or.inl hr)
    have hfuel := drainRefs_isSome definitions
      (work ++ (definitions.map (fun p => collectRefs p.2)).flatten)
      ((definitions.map (fun p => (collectRefs p.2).length)).sum) hUc hB
      ((work ++ (definitions.map (fun p => collectRefs p.2)).flatten).toFinset.card *
          ((definitions.map (fun p => (collectRefs p.2).length)).sum + 1) + work.length)
      [] work hw (by simp)
    cases hres : drainRefs definitions
        ((work ++ (definitions.map (fun p => collectRefs p.2)).flatten).toFinset.card *
          ((definitions.map (fun p => (collectRefs p.2).length)).sum + 1) + work.length)
        [] work with
    | none => rw [hres] at hfuel; simp at hfuel
    | some res =>
      have hspec := drainRefs_spec definitions _ [] work res hres (by simp) (by simp)
      exact ⟨_, res, hres, hspec.1, hspec.2.2.1, hspec.2.2.2⟩
  · exact ⟨by decide, by decide⟩
